import Mathlib

/-!
# Verification of the Intelekt-app generation/understanding core

Shallow embedding of the backend services of the Intelekt application
builder — the AI response parsers (`backend/services/ai_service.py`), the
codebase indexer and context assembler
(`backend/services/codebase_indexer.py`) and the project store
(`backend/services/code_generator.py`) — together with theorems settling
the specification claims about them.

Python strings are modelled as `List Char` (`Str`).  Python's regex
behaviour for the specific patterns the source uses is modelled by direct
scanning functions that reproduce the engine's leftmost-match,
greedy/lazy semantics for those patterns; each such function carries a
comment pointing at the pattern it models.  `lower()`/`isupper()` are
modelled on the ASCII range, which covers every keyword the source
compares against.
-/

set_option maxRecDepth 10000

abbrev Str := List Char

def strLit (s : String) : Str := s.toList

/-- Python whitespace for `str.strip`/`\s` (the ASCII part of the set). -/
def isPySpace (c : Char) : Bool :=
  c = ' ' || c = '\t' || c = '\n' || c = '\r' || c = '\x0b' || c = '\x0c'

/-- `\w` word characters (ASCII part). -/
def isWordChar (c : Char) : Bool :=
  ('a' ≤ c && c ≤ 'z') || ('A' ≤ c && c ≤ 'Z') || ('0' ≤ c && c ≤ '9') || c = '_'

def isUpperAscii (c : Char) : Bool := 'A' ≤ c && c ≤ 'Z'

/-- `str.lower()` (ASCII). -/
def toLowerStr (s : Str) : Str := s.map Char.toLower

/-- `str.strip()` with no argument: remove leading whitespace. -/
def pyLStrip (s : Str) : Str := s.dropWhile isPySpace

/-- `str.strip()` with no argument: remove trailing whitespace. -/
def pyRStrip (s : Str) : Str := (s.reverse.dropWhile isPySpace).reverse

/-- Python `str.strip()`. -/
def pyStrip (s : Str) : Str := pyRStrip (pyLStrip s)

/-- Split a string at the first occurrence of `needle`, returning the text
before it and the text after it (Python `re.search` on a pattern that
begins with this literal finds exactly the first occurrence). -/
def findSub (needle : Str) : Str → Option (Str × Str)
  | [] => if needle.isPrefixOf [] then some ([], []) else none
  | c :: tl =>
    if needle.isPrefixOf (c :: tl) then some ([], (c :: tl).drop needle.length)
    else (findSub needle tl).map (fun pr => (c :: pr.1, pr.2))

/-- Python `needle in s` substring test. -/
def containsSub (needle : Str) : Str → Bool
  | [] => needle.isPrefixOf []
  | c :: tl => needle.isPrefixOf (c :: tl) || containsSub needle tl

/-- Python `s.split(sep)` for a one-character separator; never returns `[]`. -/
def splitOnChar (sep : Char) : Str → List Str
  | [] => [[]]
  | c :: tl =>
    if c = sep then [] :: splitOnChar sep tl
    else
      match splitOnChar sep tl with
      | [] => [[c]]
      | h :: t => (c :: h) :: t

/-- Python `s.split('\n')`. -/
def splitNl (s : Str) : List Str := splitOnChar '\n' s

/-- Python `'\n'.join(lines)`. -/
def joinNl (lines : List Str) : Str := List.intercalate ['\n'] lines

def pySplitWsAux : Str → Str → List Str
  | [], acc => if acc = [] then [] else [acc.reverse]
  | c :: tl, acc =>
    if isPySpace c then
      if acc = [] then pySplitWsAux tl [] else acc.reverse :: pySplitWsAux tl []
    else pySplitWsAux tl (c :: acc)

/-- Python `s.split()` with no argument: split on whitespace runs,
dropping empty pieces. -/
def pySplitWs (s : Str) : List Str := pySplitWsAux s []

/-- `s.rsplit(sep, 1)[-1]` for a one-character separator: the text after the
last separator, or the whole string when the separator is absent. -/
def rsplitLast (sep : Char) (s : Str) : Str := (splitOnChar sep s).getLastD []

/-- `s.rsplit('.', 1)[0]`: the text before the last dot (the whole string
when no dot is present; the source only calls this on names that contain
a dot). -/
def rsplitDotInit (s : Str) : Str := List.intercalate ['.'] ((splitOnChar '.' s).dropLast)

/-- Decimal digits of a natural number (for Python f-string counters). -/
def natReprF : Nat → Nat → Str
  | 0, _ => []
  | fuel + 1, n =>
    if n < 10 then [Char.ofNat (48 + n)]
    else natReprF fuel (n / 10) ++ [Char.ofNat (48 + n % 10)]

def natRepr (n : Nat) : Str := natReprF (n + 1) n

/-- Association-list model of a Python `dict` under key assignment
(`d[k] = v`): replace the binding if the key is present, else append. -/
def alSet {α : Type} (m : List (Str × α)) (k : Str) (v : α) : List (Str × α) :=
  if m.any (fun p => p.1 = k) then m.map (fun p => if p.1 = k then (k, v) else p)
  else m ++ [(k, v)]

/-- Python `d.get(k)` / `k in d`. -/
def alGet {α : Type} (m : List (Str × α)) (k : Str) : Option α :=
  (m.find? (fun p => p.1 = k)).map (fun p => p.2)

/-!
## `ai_service.py` — generation-mode response parser

`AIService._parse_multi_file_response` and its fallback
`_extract_code_blocks_as_files`.
-/

def fileStartTag : Str := strLit "===FILE:"
def endFileTag : Str := strLit "===END_FILE==="
def fenceTag : Str := strLit "```"

/-- One attempted match of `===FILE:\s*([^=]+)===\s*([\s\S]*?)===END_FILE===`
at the head of `s`.  The `[^=]+` group is greedy, so it is the maximal run
of non-`'='` characters and the following `===` must be literal; the lazy
body group ends at the first occurrence of `===END_FILE===`.  The `\s*`
before the path group is folded into the returned group: the caller strips
the group, which removes exactly the whitespace that `\s*` would have
consumed.  Returns (path group, body group, rest of input). -/
def tryFileBlock (s : Str) : Option (Str × Str × Str) :=
  if fileStartTag.isPrefixOf s then
    let s1 := s.drop fileStartTag.length
    let t := s1.takeWhile (fun c => !(c = '='))
    if t = [] then none
    else
      let s2 := s1.drop t.length
      if (strLit "===").isPrefixOf s2 then
        let s3 := s2.drop 3
        let w := s3.takeWhile isPySpace
        let s4 := s3.drop w.length
        match findSub endFileTag s4 with
        | some (pre, post) => some (t, pre, post)
        | none => none
      else none
  else none

/-- One attempted match of ```` ```(\w+)?\s*\n([\s\S]*?)``` ```` at the head
of `s` (also used for the refinement fallback pattern, whose
`re.DOTALL`-flagged `.` is equivalent to `[\s\S]`).  The greedy `\s*`
followed by a literal `\n` places the body just after the last newline of
the whitespace run following the optional language word; if that run
contains no newline the position fails. -/
def tryFence (s : Str) : Option (Str × Str × Str) :=
  if fenceTag.isPrefixOf s then
    let s1 := s.drop 3
    let w := s1.takeWhile isWordChar
    let s2 := s1.drop w.length
    let run := s2.takeWhile isPySpace
    let tail0 := run.reverse.takeWhile (fun c => !(c = '\n'))
    if tail0.length = run.length then none
    else
      let s3 := s2.drop (run.length - tail0.length)
      match findSub fenceTag s3 with
      | some (pre, post) => some (w, pre, post)
      | none => none
  else none

/-- `re.findall` scanning for a two-group pattern: try the pattern at each
position, resuming after the end of each match.  Fuelled so that it
computes by kernel reduction; the guard on the remainder's length always
holds for the patterns used and keeps the fuel sufficient. -/
def scanPairsF (tryFn : Str → Option (Str × Str × Str)) : Nat → Str → List (Str × Str)
  | 0, _ => []
  | fuel + 1, s =>
    match tryFn s with
    | some pcr =>
      if pcr.2.2.length < s.length then (pcr.1, pcr.2.1) :: scanPairsF tryFn fuel pcr.2.2
      else []
    | none =>
      match s with
      | [] => []
      | _ :: tl => scanPairsF tryFn fuel tl

def scanPairs (tryFn : Str → Option (Str × Str × Str)) (s : Str) : List (Str × Str) :=
  scanPairsF tryFn (s.length + 1) s

/-- `re.findall(r'===FILE:\s*([^=]+)===\s*([\s\S]*?)===END_FILE===', response)`. -/
def scanFileBlocks (response : Str) : List (Str × Str) := scanPairs tryFileBlock response

/-- `re.findall(r'```(\w+)?\s*\n([\s\S]*?)```', response)`. -/
def scanFences (response : Str) : List (Str × Str) := scanPairs tryFence response

/-- Lines 404–412 of `ai_service.py`: remove a markdown fence from an
already-stripped body, dropping the ```` ```language ```` first line and a
trailing ```` ``` ```` line, rejoining with newlines (the result is not
re-stripped). -/
def stripFenceIfPresent (content : Str) : Str :=
  if fenceTag.isPrefixOf content then
    let lines := (splitNl content).drop 1
    let lines :=
      if lines ≠ [] && pyStrip (lines.getLastD []) = fenceTag then lines.dropLast
      else lines
    joinNl lines
  else content

structure GenFile where
  path : Str
  content : Str
deriving DecidableEq, Repr

/-- The per-match body of the loop at lines 400–418: strip path and body,
remove a fence, keep the entry only when both are non-empty. -/
def processFileBlocks (ms : List (Str × Str)) : List GenFile :=
  ms.filterMap (fun m =>
    let filepath := pyStrip m.1
    let content := stripFenceIfPresent (pyStrip m.2)
    if filepath ≠ [] && content ≠ [] then some ⟨filepath, content⟩ else none)

/-- The `extension_map.get(lang, f'file.{lang}')` table of
`_extract_code_blocks_as_files`. -/
def extensionMap (lang : Str) : Str :=
  if lang = strLit "html" then strLit "index.html"
  else if lang = strLit "css" then strLit "style.css"
  else if lang = strLit "javascript" then strLit "app.js"
  else if lang = strLit "js" then strLit "app.js"
  else if lang = strLit "python" then strLit "main.py"
  else if lang = strLit "py" then strLit "main.py"
  else if lang = strLit "json" then strLit "package.json"
  else if lang = strLit "typescript" then strLit "app.ts"
  else if lang = strLit "ts" then strLit "app.ts"
  else if lang = strLit "jsx" then strLit "App.jsx"
  else if lang = strLit "tsx" then strLit "App.tsx"
  else strLit "file." ++ lang

/-- The `while filename in used_names` loop: append `_<counter>` before the
extension until the name is fresh.  The fuel `used.length + 1` suffices
because the candidate names are pairwise distinct. -/
def freshNameGo (base : Str) (used : List Str) : Str → Nat → Nat → Str
  | cand, _, 0 => cand
  | cand, counter, fuel + 1 =>
    if cand ∈ used then
      freshNameGo base used
        (rsplitDotInit base ++ ('_' :: natRepr counter) ++ ('.' :: rsplitLast '.' base))
        (counter + 1) fuel
    else cand

def freshName (base : Str) (used : List Str) : Str :=
  freshNameGo base used base 1 (used.length + 1)

/-- The loop of `_extract_code_blocks_as_files` over the fence matches,
carrying the `used_names` set. -/
def extractCodeBlocksGo : List (Str × Str) → List Str → List GenFile
  | [], _ => []
  | lc :: rest, used =>
    let lang := toLowerStr (if lc.1 = [] then strLit "txt" else lc.1)
    let filename := freshName (extensionMap lang) used
    let used1 := filename :: used
    if pyStrip lc.2 ≠ [] then
      ⟨filename, pyStrip lc.2⟩ :: extractCodeBlocksGo rest used1
    else extractCodeBlocksGo rest used1

/-- `AIService._extract_code_blocks_as_files`. -/
def extractCodeBlocksAsFiles (response : Str) : List GenFile :=
  extractCodeBlocksGo (scanFences response) []

/-- `DEPENDENCIES:\s*([\s\S]*?)(?:EXPLANATION:|$)` and the line processing
at lines 421–427.  The group runs from the first `DEPENDENCIES:` to the
first following `EXPLANATION:` (or the end); the `\s*` prefix and the `$`
anchor only shave whitespace that the immediate `.strip()` removes as
well, so the region is modelled raw and stripped once. -/
def extractDependencies (response : Str) : List Str :=
  match findSub (strLit "DEPENDENCIES:") response with
  | none => []
  | some (_, tail1) =>
    let region :=
      match findSub (strLit "EXPLANATION:") tail1 with
      | some (pre, _) => pre
      | none => tail1
    let depsText := pyStrip region
    let ls := splitNl depsText
    let plain := (ls.filter
      (fun d => pyStrip d ≠ [] && !((strLit "-").isPrefixOf d))).map pyStrip
    let dashed := (ls.filter (fun d => (strLit "-").isPrefixOf (pyStrip d))).map
      (fun d => pyStrip ((pyStrip d).dropWhile (fun c => c = '-')))
    (plain ++ dashed).filter (fun d => d ≠ [])

/-- `EXPLANATION:\s*([\s\S]*?)$` (line 430): everything after the first
`EXPLANATION:`, stripped (`\s*` and the `$` anchor only trim whitespace
that the `.strip()` removes as well). -/
def extractExplanation (response : Str) : Str :=
  match findSub (strLit "EXPLANATION:") response with
  | none => []
  | some (_, tail1) => pyStrip tail1

structure MultiFileResult where
  files : List GenFile
  dependencies : List Str
  explanation : Str
deriving DecidableEq, Repr

/-- `AIService._parse_multi_file_response`. -/
def parseMultiFileResponse (response : Str) : MultiFileResult :=
  let fs := processFileBlocks (scanFileBlocks response)
  let fs := if fs = [] then extractCodeBlocksAsFiles response else fs
  { files := fs
    dependencies := extractDependencies response
    explanation := extractExplanation response }

/-!
## `ai_service.py` — refinement-mode response parser

`AIService._parse_refinement_response`, `_fallback_refinement_parse` and
`is_refinement_request`.  The module imports `anthropic`, `httpx`,
`typing`, `models.schemas`, `config` and `json` at top level but never
`re`: the only `import re` statements are local to
`_parse_multi_file_response` and `_extract_code_blocks_as_files`, so the
name `re` is unbound wherever the two refinement parsers reference it,
and Python raises `NameError: name 're' is not defined` there.  The
raise is modelled with `Except`; the statements before it (building the
local `result`/`files` values and the `"===NO_CHANGES===" in response`
membership test) have no observable effect besides choosing which
`re.search` line raises.
-/

def noChangesTag : Str := strLit "===NO_CHANGES==="

def nameErrorRe : Str := strLit "NameError: name 're' is not defined"

structure RefFile where
  path : Str
  content : Str
  is_new : Bool
deriving DecidableEq, Repr

structure RefinementResult where
  summary : Str
  modified_files : List RefFile
  no_changes : Bool
  explanation : Str
deriving DecidableEq, Repr

/-- `AIService._fallback_refinement_parse` as executed: after the no-op
`files = []`, the very next statement is `matches = re.findall(...)`, and
`re` is unbound in the module scope, so every call raises
`NameError: name 're' is not defined` before any input-dependent work. -/
def fallbackRefinementParse (response : Str) (existing : List (Str × Str)) :
    Except Str (List RefFile) :=
  .error nameErrorRe

/-- `AIService._parse_refinement_response` as executed: the
`"===NO_CHANGES===" in response` test runs first; the taken branch then
raises `NameError: name 're' is not defined` at its `re.search` call (the
no-changes explanation search in one branch, the `CHANGES_SUMMARY` search
in the other), so every call raises before reading any sentinel block. -/
def parseRefinementResponse (response : Str) (existing : List (Str × Str)) :
    Except Str RefinementResult :=
  if containsSub noChangesTag response then .error nameErrorRe
  else .error nameErrorRe

/-- The fixed modification-verb set of `is_refinement_request`. -/
def refinementVerbs : List Str :=
  [strLit "change", strLit "fix", strLit "update", strLit "make", strLit "adjust",
   strLit "modify", strLit "tweak", strLit "improve", strLit "align", strLit "center",
   strLit "move", strLit "resize", strLit "recolor", strLit "restyle",
   strLit "add padding", strLit "add margin", strLit "remove", strLit "hide",
   strLit "show", strLit "increase", strLit "decrease", strLit "bigger", strLit "smaller"]

/-- The fixed element-reference set of `is_refinement_request`. -/
def elementReferences : List Str :=
  [strLit "the header", strLit "the footer", strLit "the button", strLit "the nav",
   strLit "the sidebar", strLit "the menu", strLit "the form", strLit "the input",
   strLit "the title", strLit "the text", strLit "the image", strLit "the logo",
   strLit "the card", strLit "the container", strLit "the section", strLit "the div",
   strLit "that", strLit "this", strLit "it"]

/-- The fixed colour/style-keyword set of `is_refinement_request`. -/
def styleKeywords : List Str :=
  [strLit "blue", strLit "red", strLit "green", strLit "black", strLit "white",
   strLit "dark", strLit "light", strLit "bold", strLit "italic", strLit "larger",
   strLit "smaller", strLit "centered", strLit "left", strLit "right", strLit "top",
   strLit "bottom", strLit "rounded", strLit "shadow", strLit "border"]

/-- `AIService.is_refinement_request`. -/
def is_refinement_request (message : Str) (has_existing_files : Bool) : Bool :=
  if !has_existing_files then false
  else
    let ml := toLowerStr message
    let hasVerb := refinementVerbs.any (fun v => containsSub v ml)
    let hasElem := elementReferences.any (fun r => containsSub r ml)
    let hasStyle := styleKeywords.any (fun k => containsSub k ml)
    let isShort := (pySplitWs message).length < 15
    (hasVerb && (hasElem || hasStyle)) || (isShort && hasStyle && hasElem)

/-!
## `codebase_indexer.py` — file analysis

Path helpers model `pathlib.Path.suffix`/`.stem` (CPython: the name's last
dot must be at an interior, non-initial position), and the per-language
regex sets of `CodebaseIndexer.PATTERNS` are modelled by scanners
reproducing `re.findall` with the same greedy/lazy/alternation order.
-/

def lastPathComponent (s : Str) : Str := (splitOnChar '/' s).getLastD []

def lastDotIdx (s : Str) : Option Nat :=
  (List.range s.length).foldl
    (fun acc i => if s.getD i ' ' = '.' then some i else acc) none

/-- `pathlib.Path(p).suffix`. -/
def pathSuffix (p : Str) : Str :=
  let name := lastPathComponent p
  match lastDotIdx name with
  | some i => if 0 < i && i + 1 < name.length then name.drop i else []
  | none => []

/-- `pathlib.Path(p).stem`. -/
def pathStem (p : Str) : Str :=
  let name := lastPathComponent p
  match lastDotIdx name with
  | some i => if 0 < i && i + 1 < name.length then name.take i else name
  | none => name

/-- UTF-8 byte count of one character (`len(content.encode('utf-8'))`). -/
def utf8Len (c : Char) : Nat :=
  if c.toNat < 0x80 then 1
  else if c.toNat < 0x800 then 2
  else if c.toNat < 0x10000 then 3
  else 4

/-- The `LANGUAGE_MAP` extension table. -/
def languageMap (ext : Str) : Option Str :=
  if ext = strLit ".py" then some (strLit "python")
  else if ext = strLit ".js" then some (strLit "javascript")
  else if ext = strLit ".jsx" then some (strLit "javascript-react")
  else if ext = strLit ".ts" then some (strLit "typescript")
  else if ext = strLit ".tsx" then some (strLit "typescript-react")
  else if ext = strLit ".html" then some (strLit "html")
  else if ext = strLit ".css" then some (strLit "css")
  else if ext = strLit ".scss" then some (strLit "scss")
  else if ext = strLit ".json" then some (strLit "json")
  else if ext = strLit ".md" then some (strLit "markdown")
  else if ext = strLit ".mojo" then some (strLit "mojo")
  else if ext = strLit ".sql" then some (strLit "sql")
  else if ext = strLit ".yaml" then some (strLit "yaml")
  else if ext = strLit ".yml" then some (strLit "yaml")
  else none

/-- `LANGUAGE_MAP.get(Path(filepath).suffix.lower(), 'unknown')`. -/
def languageOf (p : Str) : Str :=
  (languageMap (toLowerStr (pathSuffix p))).getD (strLit "unknown")

/-- `re.findall` for an unanchored one-group pattern: try at each position,
resume after each match (fuelled, with the always-true progress guard). -/
def scanWordF (tryFn : Str → Option (Str × Str)) : Nat → Str → List Str
  | 0, _ => []
  | fuel + 1, s =>
    match tryFn s with
    | some gr =>
      if gr.2.length < s.length then gr.1 :: scanWordF tryFn fuel gr.2 else []
    | none =>
      match s with
      | [] => []
      | _ :: tl => scanWordF tryFn fuel tl

def scanWord (tryFn : Str → Option (Str × Str)) (s : Str) : List Str :=
  scanWordF tryFn (s.length + 1) s

/-- `re.findall` with `re.MULTILINE` for a `^`-anchored pattern: a match is
attempted only at line starts.  The anchored patterns the source uses all
end in a non-newline character (`\w` or `(`), so the position right after
a match is never a line start. -/
def scanAnchorF (tryFn : Str → Option (Str × Str)) : Nat → Bool → Str → List Str
  | 0, _, _ => []
  | fuel + 1, bol, s =>
    match (if bol then tryFn s else none) with
    | some gr =>
      if gr.2.length < s.length then gr.1 :: scanAnchorF tryFn fuel false gr.2 else []
    | none =>
      match s with
      | [] => []
      | c :: tl => scanAnchorF tryFn fuel (c = '\n') tl

def scanAnchor (tryFn : Str → Option (Str × Str)) (s : Str) : List Str :=
  scanAnchorF tryFn (s.length + 1) true s

/-- `<kw>\s+(\w+)`: the keyword literal, at least one whitespace character
(greedy), then the maximal word-character run as the group. -/
def tryKwWord (kw : Str) (s : Str) : Option (Str × Str) :=
  if kw.isPrefixOf s then
    let s1 := s.drop kw.length
    let w := s1.takeWhile isPySpace
    if w = [] then none
    else
      let s2 := s1.drop w.length
      let g := s2.takeWhile isWordChar
      if g = [] then none else some (g, s2.drop g.length)
  else none

/-- `^def\s+(\w+)\s*\(` (attempted at one position; anchoring is the
scanner's job). -/
def tryPyDef (s : Str) : Option (Str × Str) :=
  match tryKwWord (strLit "def") s with
  | none => none
  | some (g, s3) =>
    let s4 := s3.drop (s3.takeWhile isPySpace).length
    match s4 with
    | '(' :: rest => some (g, rest)
    | _ => none

/-- `(?:<kw>\s+)?...`: try the optional keyword-plus-whitespace first (the
greedy preference of `(?:...)?`), else continue without it. -/
def tryOptPrefKw (kw : Str) (s : Str) (cont : Str → Option (Str × Str)) :
    Option (Str × Str) :=
  (if kw.isPrefixOf s then
    let s1 := s.drop kw.length
    let w := s1.takeWhile isPySpace
    if w = [] then none else cont (s1.drop w.length)
   else none) <|> cont s

/-- `<kw>\s+([A-Z]\w+)`. -/
def tryKwUpperWord (kw : Str) (s : Str) : Option (Str × Str) :=
  if kw.isPrefixOf s then
    let s1 := s.drop kw.length
    let w := s1.takeWhile isPySpace
    if w = [] then none
    else
      match s1.drop w.length with
      | c :: s3 =>
        if isUpperAscii c then
          let g := s3.takeWhile isWordChar
          if g = [] then none else some (c :: g, s3.drop g.length)
        else none
      | [] => none
  else none

/-- `(?:export\s+)?(?:default\s+)?(?:function|const)\s+([A-Z]\w+)`
(the `components` pattern of the JS and TS sets). -/
def tryComponent (s : Str) : Option (Str × Str) :=
  tryOptPrefKw (strLit "export") s (fun s2 =>
    tryOptPrefKw (strLit "default") s2 (fun s3 =>
      tryKwUpperWord (strLit "function") s3 <|> tryKwUpperWord (strLit "const") s3))

/-- The tail `\s*(?:=\s*(?:async\s*)?\(|=\s*function|\()` of the JS
`functions` pattern, with the alternation tried in source order. -/
def jsFnTail (s : Str) : Option Str :=
  let s1 := s.drop (s.takeWhile isPySpace).length
  match s1 with
  | '=' :: s2 =>
    let s3 := s2.drop (s2.takeWhile isPySpace).length
    (if (strLit "async").isPrefixOf s3 then
      let s4 := s3.drop 5
      let s5 := s4.drop (s4.takeWhile isPySpace).length
      match s5 with
      | '(' :: rest => some rest
      | _ => none
     else none) <|>
    (match s3 with
     | '(' :: rest => some rest
     | _ => none) <|>
    (if (strLit "function").isPrefixOf s3 then some (s3.drop 8) else none)
  | '(' :: rest => some rest
  | _ => none

def tryJsFnKw (kw : Str) (s : Str) : Option (Str × Str) :=
  match tryKwWord kw s with
  | none => none
  | some (g, s3) =>
    match jsFnTail s3 with
    | some rest => some (g, rest)
    | none => none

/-- `(?:function|const|let|var)\s+(\w+)\s*(?:=\s*(?:async\s*)?\(|=\s*function|\()`. -/
def tryJsFunction (s : Str) : Option (Str × Str) :=
  tryJsFnKw (strLit "function") s <|> tryJsFnKw (strLit "const") s <|>
    tryJsFnKw (strLit "let") s <|> tryJsFnKw (strLit "var") s

/-- The tail `\s+from\s+['"]([^'"]+)['"]` of the import pattern. -/
def jsImportTail (t : Str) : Option (Str × Str) :=
  let w := t.takeWhile isPySpace
  if w = [] then none
  else
    let t1 := t.drop w.length
    if (strLit "from").isPrefixOf t1 then
      let t2 := t1.drop 4
      let w2 := t2.takeWhile isPySpace
      if w2 = [] then none
      else
        match t2.drop w2.length with
        | q :: t4 =>
          if q = '\'' || q = '"' then
            let g := t4.takeWhile (fun c => !(c = '\'') && !(c = '"'))
            if g = [] then none
            else
              match t4.drop g.length with
              | q2 :: rest => if q2 = '\'' || q2 = '"' then some (g, rest) else none
              | [] => none
          else none
        | [] => none
    else none

/-- The lazy `.*?` before the tail: grow from the shortest, never across a
newline (`.` without DOTALL). -/
def jsImportLazy : Str → Option (Str × Str)
  | [] => jsImportTail []
  | c :: tl =>
    match jsImportTail (c :: tl) with
    | some r => some r
    | none => if c = '\n' then none else jsImportLazy tl

/-- The greedy backtracking of the first `\s+`: try the maximal whitespace
run first, then give characters back one at a time (down to one). -/
def jsImportW1 (s1 : Str) : Nat → Option (Str × Str)
  | 0 => none
  | k + 1 => jsImportLazy (s1.drop (k + 1)) <|> jsImportW1 s1 k

/-- `import\s+.*?\s+from\s+['"]([^'"]+)['"]`. -/
def tryJsImport (s : Str) : Option (Str × Str) :=
  if (strLit "import").isPrefixOf s then
    let s1 := s.drop 6
    let w := s1.takeWhile isPySpace
    if w = [] then none else jsImportW1 s1 w.length
  else none

/-- `require\s*\(\s*['"]([^'"]+)['"]\s*\)`. -/
def tryRequire (s : Str) : Option (Str × Str) :=
  if (strLit "require").isPrefixOf s then
    let s1 := s.drop 7
    match s1.drop (s1.takeWhile isPySpace).length with
    | '(' :: s3 =>
      match s3.drop (s3.takeWhile isPySpace).length with
      | q :: s5 =>
        if q = '\'' || q = '"' then
          let g := s5.takeWhile (fun c => !(c = '\'') && !(c = '"'))
          if g = [] then none
          else
            match s5.drop g.length with
            | q2 :: s6 =>
              if q2 = '\'' || q2 = '"' then
                match s6.drop (s6.takeWhile isPySpace).length with
                | ')' :: rest => some (g, rest)
                | _ => none
              else none
            | [] => none
        else none
      | [] => none
    | _ => none
  else none

/-- `(?:export\s+)?class\s+(\w+)` (TS `classes`). -/
def tryTsClass (s : Str) : Option (Str × Str) :=
  tryOptPrefKw (strLit "export") s (fun s2 => tryKwWord (strLit "class") s2)

/-- `(?:export\s+)?(?:async\s+)?function\s+(\w+)` (TS `functions`). -/
def tryTsFunction (s : Str) : Option (Str × Str) :=
  tryOptPrefKw (strLit "export") s (fun s2 =>
    tryOptPrefKw (strLit "async") s2 (fun s3 => tryKwWord (strLit "function") s3))

/-- Python `imports` patterns `^import\s+(\w+)` then `^from\s+(\w+)`, each
scanned over the whole text in turn (the source extends the list pattern
by pattern). -/
def pyImportsOf (content : Str) : List Str :=
  scanAnchor (tryKwWord (strLit "import")) content ++
    scanAnchor (tryKwWord (strLit "from")) content

def pyFunctionsOf (content : Str) : List Str := scanAnchor tryPyDef content

def pyClassesOf (content : Str) : List Str :=
  scanAnchor (tryKwWord (strLit "class")) content

def jsImportsOf (content : Str) : List Str :=
  scanWord tryJsImport content ++ scanWord tryRequire content

def jsFunctionsOf (content : Str) : List Str := scanWord tryJsFunction content

def jsClassesOf (content : Str) : List Str :=
  scanWord (tryKwWord (strLit "class")) content

def jsComponentsOf (content : Str) : List Str := scanWord tryComponent content

def tsImportsOf (content : Str) : List Str := scanWord tryJsImport content

def tsFunctionsOf (content : Str) : List Str := scanWord tryTsFunction content

def tsClassesOf (content : Str) : List Str := scanWord tryTsClass content

/-- `c[0].isupper()` filter applied to the `components` matches. -/
def headIsUpper (n : Str) : Bool :=
  match n with
  | c :: _ => isUpperAscii c
  | [] => false

structure FileInfo where
  path : Str
  content : Str
  language : Str
  size : Nat
  lines : Nat
  imports : List Str
  exports : List Str
  functions : List Str
  classes : List Str
  components : List Str
deriving DecidableEq, Repr

/-- `CodebaseIndexer._analyze_file`.  `PATTERNS.get(lang_key,
PATTERNS.get('javascript', {}))` gives the Python set only to `python`,
the TS set only to `typescript`, and the JavaScript set to every other
language key — including `unknown`.  The TS set's `interfaces`/`types`
entries are never read by `_analyze_file` and are omitted.  The `exports`
field of `FileInfo` is declared but never filled by the source. -/
def analyze_file (filepath content : Str) : FileInfo :=
  let language := languageOf filepath
  let langKey := (splitOnChar '-' language).headD []
  let base : FileInfo :=
    { path := filepath, content := content, language := language
      size := (content.map utf8Len).sum
      lines := content.count '\n' + 1
      imports := [], exports := [], functions := [], classes := [], components := [] }
  if langKey = strLit "python" then
    { base with imports := pyImportsOf content, functions := pyFunctionsOf content
                classes := pyClassesOf content }
  else if langKey = strLit "typescript" then
    { base with imports := tsImportsOf content, functions := tsFunctionsOf content
                classes := tsClassesOf content
                components := (jsComponentsOf content).filter headIsUpper }
  else
    { base with imports := jsImportsOf content, functions := jsFunctionsOf content
                classes := jsClassesOf content
                components := (jsComponentsOf content).filter headIsUpper }

/-!
## `codebase_indexer.py` — dependency graph, tech stack, patterns, index

`json.loads` (used on `package.json` inside a bare `try/except`) is
modelled by a small JSON parser covering the grammar Python's decoder
accepts; its only observable use is the key sets of the
`dependencies`/`devDependencies` objects, and any parse or shape error
makes the whole `try` block a no-op, exactly as the bare `except: pass`
does.  Lone surrogates in `\u` escapes, which Python would keep, are not
representable in `Char` and decode to U+FFFD; no claim observes string
values.
-/

inductive JVal where
  | jnull
  | jbool (b : Bool)
  | jnum
  | jstr (s : Str)
  | jarr (xs : List JVal)
  | jobj (kvs : List (Str × JVal))

/-- JSON inter-token whitespace (`json.decoder.WHITESPACE`). -/
def jSkipWs (s : Str) : Str :=
  s.dropWhile (fun c => c = ' ' || c = '\t' || c = '\n' || c = '\r')

def hexVal (c : Char) : Option Nat :=
  if '0' ≤ c && c ≤ '9' then some (c.toNat - 48)
  else if 'a' ≤ c && c ≤ 'f' then some (c.toNat - 87)
  else if 'A' ≤ c && c ≤ 'F' then some (c.toNat - 55)
  else none

def parseHex4 (s : Str) : Option (Nat × Str) :=
  match s with
  | a :: b :: c :: d :: rest =>
    match hexVal a, hexVal b, hexVal c, hexVal d with
    | some x, some y, some z, some u => some (((x * 16 + y) * 16 + z) * 16 + u, rest)
    | _, _, _, _ => none
  | _ => none

/-- JSON string body after the opening quote (strict: raw control
characters are rejected). -/
def parseJStrF : Nat → Str → Option (Str × Str)
  | 0, _ => none
  | fuel + 1, s =>
    match s with
    | [] => none
    | '"' :: rest => some ([], rest)
    | '\\' :: e :: rest =>
      if e = '"' || e = '\\' || e = '/' then
        (parseJStrF fuel rest).map (fun pr => (e :: pr.1, pr.2))
      else if e = 'b' then (parseJStrF fuel rest).map (fun pr => ('\x08' :: pr.1, pr.2))
      else if e = 'f' then (parseJStrF fuel rest).map (fun pr => ('\x0c' :: pr.1, pr.2))
      else if e = 'n' then (parseJStrF fuel rest).map (fun pr => ('\n' :: pr.1, pr.2))
      else if e = 'r' then (parseJStrF fuel rest).map (fun pr => ('\r' :: pr.1, pr.2))
      else if e = 't' then (parseJStrF fuel rest).map (fun pr => ('\t' :: pr.1, pr.2))
      else if e = 'u' then
        match parseHex4 rest with
        | none => none
        | some (h, rest2) =>
          if 0xd800 ≤ h && h ≤ 0xdbff then
            match rest2 with
            | '\\' :: 'u' :: rest3 =>
              match parseHex4 rest3 with
              | some (l, rest4) =>
                if 0xdc00 ≤ l && l ≤ 0xdfff then
                  let cp := 0x10000 + (h - 0xd800) * 0x400 + (l - 0xdc00)
                  (parseJStrF fuel rest4).map (fun pr => (Char.ofNat cp :: pr.1, pr.2))
                else (parseJStrF fuel rest2).map (fun pr => ('\ufffd' :: pr.1, pr.2))
              | none => (parseJStrF fuel rest2).map (fun pr => ('\ufffd' :: pr.1, pr.2))
            | _ => (parseJStrF fuel rest2).map (fun pr => ('\ufffd' :: pr.1, pr.2))
          else if 0xdc00 ≤ h && h ≤ 0xdfff then
            (parseJStrF fuel rest2).map (fun pr => ('\ufffd' :: pr.1, pr.2))
          else (parseJStrF fuel rest2).map (fun pr => (Char.ofNat h :: pr.1, pr.2))
      else none
    | c :: rest =>
      if c.toNat < 0x20 then none
      else (parseJStrF fuel rest).map (fun pr => (c :: pr.1, pr.2))

/-- JSON number token: `-?(?:0|[1-9]\d*)(\.\d+)?([eE][-+]?\d+)?` (the
decoder's `NUMBER_RE`); returns the rest after the maximal token. -/
def parseJNumTail (s : Str) : Option Str :=
  let intRest :=
    match s with
    | '0' :: rest => some rest
    | c :: rest => if c.isDigit then some (rest.dropWhile Char.isDigit) else none
    | [] => none
  match intRest with
  | none => none
  | some r1 =>
    let r2 :=
      match r1 with
      | '.' :: rest =>
        let d := rest.takeWhile Char.isDigit
        if d = [] then r1 else rest.drop d.length
      | _ => r1
    let r3 :=
      match r2 with
      | c :: rest =>
        if c = 'e' || c = 'E' then
          let rest2 :=
            match rest with
            | c2 :: r0 => if c2 = '+' || c2 = '-' then r0 else rest
            | [] => []
          let d := rest2.takeWhile Char.isDigit
          if d = [] then r2 else rest2.drop d.length
        else r2
      | [] => r2
    some r3

mutual

/-- One JSON value (Python `json.loads` grammar, including the default
`NaN`/`Infinity`/`-Infinity` constants). -/
def parseJVal : Nat → Str → Option (JVal × Str)
  | 0, _ => none
  | fuel + 1, s0 =>
    let s := jSkipWs s0
    match s with
    | [] => none
    | c :: tl =>
      if c = 'n' then
        if (strLit "ull").isPrefixOf tl then some (.jnull, tl.drop 3) else none
      else if c = 't' then
        if (strLit "rue").isPrefixOf tl then some (.jbool true, tl.drop 3) else none
      else if c = 'f' then
        if (strLit "alse").isPrefixOf tl then some (.jbool false, tl.drop 4) else none
      else if c = 'N' then
        if (strLit "aN").isPrefixOf tl then some (.jnum, tl.drop 2) else none
      else if c = 'I' then
        if (strLit "nfinity").isPrefixOf tl then some (.jnum, tl.drop 7) else none
      else if c = '"' then
        (parseJStrF (tl.length + 1) tl).map (fun pr => (.jstr pr.1, pr.2))
      else if c = '-' then
        if (strLit "Infinity").isPrefixOf tl then some (.jnum, tl.drop 8)
        else (parseJNumTail tl).map (fun r => (.jnum, r))
      else if c.isDigit then (parseJNumTail s).map (fun r => (.jnum, r))
      else if c = '[' then
        match jSkipWs tl with
        | ']' :: rest => some (.jarr [], rest)
        | s1 => (parseJArr fuel s1).map (fun pr => (.jarr pr.1, pr.2))
      else if c = '{' then
        match jSkipWs tl with
        | '}' :: rest => some (.jobj [], rest)
        | s1 => (parseJObj fuel s1).map (fun pr => (.jobj pr.1, pr.2))
      else none

/-- Array elements from the first element on. -/
def parseJArr : Nat → Str → Option (List JVal × Str)
  | 0, _ => none
  | fuel + 1, s =>
    match parseJVal fuel s with
    | none => none
    | some (v, rest) =>
      match jSkipWs rest with
      | ',' :: rest2 => (parseJArr fuel rest2).map (fun pr => (v :: pr.1, pr.2))
      | ']' :: rest2 => some ([v], rest2)
      | _ => none

/-- Object members from the first key on. -/
def parseJObj : Nat → Str → Option (List (Str × JVal) × Str)
  | 0, _ => none
  | fuel + 1, s =>
    match s with
    | '"' :: tl =>
      match parseJStrF (tl.length + 1) tl with
      | none => none
      | some (k, rest) =>
        match jSkipWs rest with
        | ':' :: rest2 =>
          match parseJVal fuel rest2 with
          | none => none
          | some (v, rest3) =>
            match jSkipWs rest3 with
            | ',' :: rest4 =>
              match jSkipWs rest4 with
              | s5 => (parseJObj fuel s5).map (fun pr => ((k, v) :: pr.1, pr.2))
            | '}' :: rest4 => some ([(k, v)], rest4)
            | _ => none
        | _ => none
    | _ => none

end

/-- `dict` built from JSON object members: a duplicate key keeps the last
value; membership is on keys. -/
def jObjHasKey (kvs : List (Str × JVal)) (k : Str) : Bool :=
  kvs.any (fun p => p.1 = k)

def jObjGet (kvs : List (Str × JVal)) (k : Str) : Option JVal :=
  (kvs.reverse.find? (fun p => p.1 = k)).map (fun p => p.2)

/-- The `try` block of `_detect_tech_stack` up to building
`deps = {**pkg.get('dependencies', {}), **pkg.get('devDependencies', {})}`:
`none` when `json.loads` fails, the document is not an object, or either
value is present but not an object (each case raises inside the bare
`try`).  The result is the merged key list, which is all the block ever
reads (`'react' in deps`, …). -/
def parsePackageDeps (txt : Str) : Option (List Str) :=
  match parseJVal (txt.length + 1) txt with
  | some (.jobj kvs, rest) =>
    if jSkipWs rest = [] then
      match jObjGet kvs (strLit "dependencies"), jObjHasKey kvs (strLit "dependencies"),
            jObjGet kvs (strLit "devDependencies"), jObjHasKey kvs (strLit "devDependencies") with
      | some (.jobj d1), _, some (.jobj d2), _ => some ((d1 ++ d2).map (fun p => p.1))
      | some (.jobj d1), _, none, false => some (d1.map (fun p => p.1))
      | none, false, some (.jobj d2), _ => some (d2.map (fun p => p.1))
      | none, false, none, false => some []
      | _, _, _, _ => none
    else none
  | some _ => none
  | none => none

/-- `CodebaseIndexer._build_dependency_graph`.  The
`.replace('./','').replace('../','')` calls are no-ops after
`imp.split('/')[-1]`, since the last segment contains no `'/'`. -/
def buildDependencyGraph (files : List FileInfo) : List (Str × List Str) :=
  let fileMap := files.foldl (fun m info => alSet m (pathStem info.path) info.path) []
  files.foldl
    (fun g info =>
      let edges := info.imports.filterMap (fun imp =>
        alGet fileMap (rsplitLast '/' imp))
      if edges = [] then g else g ++ [(info.path, edges)])
    []

/-- `CodebaseIndexer._detect_tech_stack`. -/
def detectTechStack (files : List (Str × Str)) : List (Str × Str) :=
  let tech : List (Str × Str) := []
  let tech :=
    match alGet files (strLit "package.json") with
    | none => tech
    | some txt =>
      match parsePackageDeps txt with
      | none => tech
      | some deps =>
        let has := fun (n : Str) => deps.any (fun d => d = n)
        let t := tech
        let t := if has (strLit "react") then alSet t (strLit "frontend") (strLit "React") else t
        let t := if has (strLit "next") then alSet t (strLit "framework") (strLit "Next.js") else t
        let t := if has (strLit "vue") then alSet t (strLit "frontend") (strLit "Vue") else t
        let t := if has (strLit "svelte") then alSet t (strLit "frontend") (strLit "Svelte") else t
        let t := if has (strLit "tailwindcss") then alSet t (strLit "styling") (strLit "Tailwind CSS") else t
        let t := if has (strLit "typescript") then alSet t (strLit "language") (strLit "TypeScript") else t
        let t := if has (strLit "@prisma/client") then alSet t (strLit "orm") (strLit "Prisma") else t
        let t := if has (strLit "express") then alSet t (strLit "backend") (strLit "Express") else t
        t
  let tech :=
    match alGet files (strLit "requirements.txt") with
    | none => tech
    | some txt =>
      let reqs := toLowerStr txt
      let t := tech
      let t := if containsSub (strLit "fastapi") reqs then alSet t (strLit "backend") (strLit "FastAPI") else t
      let t := if containsSub (strLit "flask") reqs then alSet t (strLit "backend") (strLit "Flask") else t
      let t := if containsSub (strLit "django") reqs then alSet t (strLit "backend") (strLit "Django") else t
      let t := if containsSub (strLit "chromadb") reqs then alSet t (strLit "database") (strLit "ChromaDB") else t
      let t := if containsSub (strLit "sqlalchemy") reqs then alSet t (strLit "orm") (strLit "SQLAlchemy") else t
      t
  let tech :=
    if files.any (fun f => (strLit ".py").isSuffixOf f.1) &&
        !(tech.any (fun p => p.1 = strLit "language")) then
      alSet tech (strLit "language") (strLit "Python")
    else tech
  let tech :=
    if files.any (fun f => (strLit ".mojo").isSuffixOf f.1) then
      alSet tech (strLit "language") (strLit "Mojo")
    else tech
  tech

def joinSep (sep : Str) (xs : List Str) : Str := List.intercalate sep xs

/-- The state-management loop of `_detect_patterns`: the first file whose
space-joined imports contain `zustand` (checked first) or `redux` wins and
the loop breaks. -/
def stateMgmtPattern : List FileInfo → List Str
  | [] => []
  | f :: rest =>
    let joined := joinSep [' '] f.imports
    if containsSub (strLit "zustand") joined then [strLit "State management: Zustand"]
    else if containsSub (strLit "redux") joined then [strLit "State management: Redux"]
    else stateMgmtPattern rest

/-- `CodebaseIndexer._detect_patterns`. -/
def detectPatterns (files : List FileInfo) : List Str :=
  let comps := files.foldl (fun acc f => acc ++ f.components) []
  let p1 :=
    if comps ≠ [] then
      [strLit "React functional components: " ++ joinSep (strLit ", ") (comps.take 5)]
    else []
  let apiFiles := (files.map (fun f => f.path)).filter (fun p =>
    containsSub (strLit "api") (toLowerStr p) || containsSub (strLit "route") (toLowerStr p))
  let p2 :=
    if apiFiles ≠ [] then
      [strLit "API routes in: " ++ joinSep (strLit ", ") (apiFiles.take 3)]
    else []
  let hooks := files.foldl
    (fun acc f => acc ++ f.functions.filter (fun fn => (strLit "use").isPrefixOf fn)) []
  let p3 :=
    if hooks ≠ [] then
      [strLit "Custom hooks: " ++ joinSep (strLit ", ") (hooks.take 5)]
    else []
  p1 ++ p2 ++ p3 ++ stateMgmtPattern files

/-- The ordered `priority_files` list of `_find_entry_points`
(`src/App.tsx` appears twice in the source and is kept twice). -/
def priorityFiles : List Str :=
  [strLit "src/index.tsx", strLit "src/index.ts", strLit "src/index.js",
   strLit "src/main.tsx", strLit "src/main.ts", strLit "src/App.tsx",
   strLit "src/App.tsx", strLit "index.html", strLit "main.py",
   strLit "app.py", strLit "server.py", strLit "index.js", strLit "main.mojo"]

/-- `CodebaseIndexer._find_entry_points`. -/
def findEntryPoints (files : List (Str × Str)) : List Str :=
  priorityFiles.filter (fun pf => files.any (fun f => f.1 = pf))

structure CodebaseIndexL where
  project_id : Str
  files : List FileInfo
  dependency_graph : List (Str × List Str)
  tech_stack : List (Str × Str)
  patterns : List Str
  entry_points : List Str
  total_lines : Nat
  total_files : Nat

/-- `CodebaseIndexer.index_project`.  The per-file loop accumulating the
totals is modelled as a map plus sums; the `indexed_at` wall-clock stamp
and the write into the `self.indexes` cache (which no claim observes) are
not modelled. -/
def index_project (project_id : Str) (files : List (Str × Str)) : CodebaseIndexL :=
  let infos := files.map (fun f => analyze_file f.1 f.2)
  { project_id := project_id
    files := infos
    dependency_graph := buildDependencyGraph infos
    tech_stack := detectTechStack files
    patterns := detectPatterns infos
    entry_points := findEntryPoints files
    total_lines := (infos.map (fun i => i.lines)).sum
    total_files := infos.length }

/-- The per-file score of `_select_relevant_files`. -/
def scoreFile (entryPoints : List Str) (queryLower : Str) (info : FileInfo) : Nat :=
  let s1 := if entryPoints.contains info.path then 10 else 0
  let s2 :=
    if [strLit "config", strLit "package.json", strLit "requirements"].any
        (fun x => containsSub x (toLowerStr info.path)) then s1 + 5
    else s1
  let s3 := s2 +
    (if queryLower ≠ [] then
      ((pySplitWs queryLower).map (fun kw =>
        (if containsSub kw (toLowerStr info.path) then 3 else 0) +
        (if containsSub kw (toLowerStr info.content) then 1 else 0))).sum
     else 0)
  let s4 := if info.components ≠ [] then s3 + 2 else s3
  if info.lines < 100 then s4 + 1 else s4

/-- `CodebaseIndexer._select_relevant_files`.  Python's `sorted(...,
key=..., reverse=True)` is a stable descending sort, which is produced by
insertion sort on the "scores at least" relation; the `files` parameter of
the source is unused (scores read `index.files` and `info.content`). -/
def select_relevant_files (index : CodebaseIndexL) (query : Str) (maxFiles : Nat) :
    List Str :=
  let queryLower := toLowerStr query
  let scores := index.files.map (fun info =>
    (info.path, scoreFile index.entry_points queryLower info))
  (((scores.insertionSort (fun a b => b.2 ≤ a.2)).take maxFiles).map (fun p => p.1))

instance : IsTotal (Str × Nat) (fun a b => b.2 ≤ a.2) :=
  ⟨fun a b => le_total b.2 a.2⟩

instance : IsTrans (Str × Nat) (fun a b => b.2 ≤ a.2) :=
  ⟨fun _ _ _ h1 h2 => le_trans h2 h1⟩

/-!
## `code_generator.py` — project store

`CodeGeneratorService` keeps an in-memory `projects_db` dict, a manifest
JSON file (`project.json`) per project directory, and the project files on
disk.  The state is modelled as three association lists; the
manifest-to-disk round trip of `_save_project_metadata` /
`_load_project_metadata` persists the record itself, `datetime.now()` is
an explicit `now` argument, and directory creation has no observable
effect on the modelled operations. -/

structure ProjectL where
  id : Str
  name : Str
  description : Str
  tech_stack : Str
  ai_provider : Str
  created_at : Nat
  updated_at : Nat
  files : List Str
  status : Str
deriving DecidableEq, Repr

structure StoreState where
  projects_db : List (Str × ProjectL)
  disk_meta : List (Str × ProjectL)
  disk_files : List (Str × Str)
deriving DecidableEq, Repr

def emptyStore : StoreState := { projects_db := [], disk_meta := [], disk_files := [] }

/-- `CodeGeneratorService._load_project_metadata`: read the manifest if it
exists (also caching it in `projects_db`), else return `None`. -/
def load_project_metadata (st : StoreState) (pid : Str) : Option ProjectL × StoreState :=
  match alGet st.disk_meta pid with
  | some p => (some p, { st with projects_db := alSet st.projects_db pid p })
  | none => (none, st)

/-- `CodeGeneratorService.get_project`: the in-memory dict first, then the
on-disk manifest; an unknown id yields `None` — no exception. -/
def get_project (st : StoreState) (pid : Str) : Option ProjectL × StoreState :=
  match alGet st.projects_db pid with
  | some p => (some p, st)
  | none => load_project_metadata st pid

/-- `CodeGeneratorService._save_project_metadata`. -/
def save_project_metadata (st : StoreState) (p : ProjectL) : StoreState :=
  { st with disk_meta := alSet st.disk_meta p.id p
            projects_db := alSet st.projects_db p.id p }

/-- `CodeGeneratorService.save_file`: raises
`ValueError(f"Project {project_id} not found")` when the project cannot be
found, otherwise writes the file, appends the path to the manifest's file
list if absent, bumps `updated_at` and persists the manifest. -/
def save_file (st : StoreState) (pid filePath content : Str) (now : Nat) :
    Except Str (StoreState × Str) :=
  match get_project st pid with
  | (none, _) => .error (strLit "Project " ++ pid ++ strLit " not found")
  | (some p, st1) =>
    let st2 := { st1 with
      disk_files := alSet st1.disk_files (pid ++ ('/' :: filePath)) content }
    let p2 := { p with
      files := if p.files.contains filePath then p.files else p.files ++ [filePath]
      updated_at := now }
    .ok (save_project_metadata st2 p2, filePath)

/-!
## Spec-side definitions

Definitions written from the wording of the claims (not from the source),
used to compare the source functions against the claimed behaviour.
-/

/-- Claim C4's `has_verb`: a substring test of the fixed modification-verb
set against the lower-cased message. -/
def specHasVerb (m : Str) : Bool :=
  refinementVerbs.any (fun v => containsSub v (toLowerStr m))

/-- Claim C4's `has_element_ref`. -/
def specHasElementRef (m : Str) : Bool :=
  elementReferences.any (fun r => containsSub r (toLowerStr m))

/-- Claim C4's `has_style_kw`. -/
def specHasStyleKw (m : Str) : Bool :=
  styleKeywords.any (fun k => containsSub k (toLowerStr m))

/-- Claim C4's `is_short`: whitespace-split word count below 15. -/
def specIsShort (m : Str) : Bool := (pySplitWs m).length < 15

/-- Claim C2's sentinel block `===FILE: <p>===\n<c>\n===END_FILE===`. -/
def mkFileBlock (p c : Str) : Str :=
  strLit "===FILE: " ++ p ++ strLit "===\n" ++ c ++ ('\n' :: endFileTag)

/-- Claim C2's response: the concatenation of the sentinel blocks. -/
def mkMultiFileResponse (bs : List (Str × Str)) : Str :=
  (bs.map (fun pc => mkFileBlock pc.1 pc.2)).foldr (fun a b => a ++ b) []

/-- Claim C2's fenced wrapping of a block body: an opening ```` ```lang ````
line and a trailing ```` ``` ```` line. -/
def wrapFence (lang c : Str) : Str :=
  fenceTag ++ lang ++ ('\n' :: c) ++ ('\n' :: fenceTag)

/-!
## Claim theorems
-/

/-- C1: generation-mode parsing of the exact input
`"===FILE: index.html===\n<html></html>\n===END_FILE===\n\nDEPENDENCIES:\nnone\n\nEXPLANATION:\ntest"`
returns one file `(index.html, <html></html>)`, dependencies `["none"]`
and explanation `"test"`. -/
theorem c1_generation_scenario :
    parseMultiFileResponse (strLit "===FILE: index.html===\n<html></html>\n===END_FILE===\n\nDEPENDENCIES:\nnone\n\nEXPLANATION:\ntest") =
      { files := [⟨strLit "index.html", strLit "<html></html>"⟩]
        dependencies := [strLit "none"]
        explanation := strLit "test" } := by
  decide

/-- C3: `index_project` is total (the embedding is a function returning a
`CodebaseIndexL`, never an error value), its `total_files` equals the
number of input entries, and the empty input yields zero totals. -/
theorem c3_index_totals (pid : Str) (files : List (Str × Str)) :
    (index_project pid files).total_files = files.length ∧
      (files = [] →
        (index_project pid files).total_files = 0 ∧
          (index_project pid files).total_lines = 0) := by
  refine ⟨by simp [index_project], ?_⟩
  rintro rfl
  exact ⟨rfl, rfl⟩

theorem c3_index_totals_witness :
    (index_project (strLit "p") []).total_files = 0 ∧
      (index_project (strLit "p") []).total_lines = 0 :=
  (c3_index_totals (strLit "p") []).2 rfl

/-- C4: `is_refinement_request` returns `false` when there are no existing
files, and otherwise returns exactly
`(has_verb ∧ (has_element_ref ∨ has_style_kw)) ∨ (is_short ∧ has_style_kw ∧ has_element_ref)`
for the fixed substring-test feature sets and the word-count threshold 15. -/
theorem c4_is_refinement_formula (message : Str) (hasFiles : Bool) :
    is_refinement_request message hasFiles =
      (hasFiles &&
        ((specHasVerb message && (specHasElementRef message || specHasStyleKw message)) ||
          (specIsShort message && specHasStyleKw message && specHasElementRef message))) := by
  cases hasFiles <;>
    simp [is_refinement_request, specHasVerb, specHasElementRef, specHasStyleKw, specIsShort]

/-- C6 (code bug): `ai_service.py` never imports `re` at module level, so
for every response containing the `===NO_CHANGES===` sentinel (and any
existing-file map) `_parse_refinement_response` raises
`NameError: name 're' is not defined` at its `re.search` call instead of
returning the `no_changes = true` record with the extracted explanation
that the claim describes — the function cannot return normally. -/
theorem c6_no_changes_raises (response : Str) (existing : List (Str × Str))
    (h : containsSub noChangesTag response = true) :
    parseRefinementResponse response existing = .error nameErrorRe := by
  simp [parseRefinementResponse, h]

theorem c6_no_changes_raises_witness :
    containsSub noChangesTag (strLit "===NO_CHANGES===\nAll good.\n===END===") = true ∧
      parseRefinementResponse (strLit "===NO_CHANGES===\nAll good.\n===END===") [] =
        .error nameErrorRe :=
  ⟨by decide, c6_no_changes_raises _ [] (by decide)⟩

/-- C7 (code bug): `_fallback_refinement_parse` raises
`NameError: name 're' is not defined` at its `re.findall` call on every
input — `re` is unbound in `ai_service.py`'s module scope — so neither
the claimed `modified.<ext>` synthesis nor any language-to-existing-file
mapping is ever produced, for unique or shared extensions alike. -/
theorem c7_fallback_raises (response : Str) (existing : List (Str × Str)) :
    fallbackRefinementParse response existing = .error nameErrorRe := rfl

/-- C8 counterexample: `notes.txt` has an extension outside the language
table, so the claim demands an empty pattern set and empty extraction
lists; the source instead falls back to the JavaScript pattern set
(`PATTERNS.get(lang_key, PATTERNS.get('javascript', {}))`), and the file
body `class Foo {}` yields a non-empty `classes` list. -/
theorem c8_counterexample :
    (analyze_file (strLit "notes.txt") (strLit "class Foo {}")).language = strLit "unknown" ∧
      (analyze_file (strLit "notes.txt") (strLit "class Foo {}")).classes = [strLit "Foo"] ∧
      (analyze_file (strLit "notes.txt") (strLit "class Foo {}")).classes ≠ [] := by
  decide

/-- C8 amended: a file whose (lower-cased) suffix is not in the extension
table gets `language = unknown`, and its imports/functions/classes/
components are the ones the JavaScript pattern set extracts from the
content (so they are empty only when those patterns do not match). -/
theorem c8_unknown_language_js_fallback (path content : Str)
    (h : languageMap (toLowerStr (pathSuffix path)) = none) :
    (analyze_file path content).language = strLit "unknown" ∧
      (analyze_file path content).imports = jsImportsOf content ∧
      (analyze_file path content).functions = jsFunctionsOf content ∧
      (analyze_file path content).classes = jsClassesOf content ∧
      (analyze_file path content).components = (jsComponentsOf content).filter headIsUpper := by
  have hl : languageOf path = strLit "unknown" := by rw [languageOf, h]; rfl
  simp only [analyze_file, hl]
  exact ⟨rfl, rfl, rfl, rfl, rfl⟩

theorem c8_unknown_language_js_fallback_witness :
    languageMap (toLowerStr (pathSuffix (strLit "notes.txt"))) = none ∧
      (analyze_file (strLit "notes.txt") (strLit "x")).language = strLit "unknown" :=
  ⟨by decide, (c8_unknown_language_js_fallback (strLit "notes.txt") (strLit "x") (by decide)).1⟩

/-- C9 counterexample: for an unknown project id, `get_project` does not
raise a NotFound-class error — it returns the normal value `None` (and
leaves the store untouched), contradicting the claim that `get` raises. -/
theorem c9_counterexample :
    get_project emptyStore (strLit "nope") = (none, emptyStore) := by decide

/-- C9 amended: for a project id with no in-memory record and no on-disk
manifest, `get_project` returns `None` without raising, while `save_file`
raises `ValueError(f"Project {project_id} not found")`. -/
theorem c9_unknown_project (st : StoreState) (pid path content : Str) (now : Nat)
    (hdb : alGet st.projects_db pid = none) (hdisk : alGet st.disk_meta pid = none) :
    (get_project st pid).1 = none ∧
      save_file st pid path content now =
        .error (strLit "Project " ++ pid ++ strLit " not found") := by
  have hg : get_project st pid = (none, st) := by
    simp [get_project, load_project_metadata, hdb, hdisk]
  exact ⟨by rw [hg], by rw [save_file, hg]⟩

theorem c9_unknown_project_witness :
    (get_project emptyStore (strLit "p")).1 = none ∧
      save_file emptyStore (strLit "p") (strLit "a.txt") (strLit "hello") 0 =
        .error (strLit "Project p not found") := by
  have h := c9_unknown_project emptyStore (strLit "p") (strLit "a.txt") (strLit "hello") 0 rfl rfl
  refine ⟨h.1, ?_⟩
  rw [h.2]
  rfl

/-- C2 counterexample: a response built from one sentinel block (n = 1,
paths trivially distinct) whose body is empty parses to zero file entries,
not one — the parser drops the block and the fallback finds no fenced
code. -/
theorem c2_counterexample :
    (parseMultiFileResponse (mkMultiFileResponse [(strLit "a", ([] : Str))])).files.length = 0 ∧
      [(strLit "a", ([] : Str))].length = 1 := by
  exact ⟨by decide, rfl⟩

/-- C5 counterexample: with files `main.py` (the only entry point) and
`notes.txt`, a twelve-keyword query whose words all occur in `notes.txt`
scores it 13 against the entry point's 11, so with
`max_files = 1 ≥ 1 = len(entry_points)` the entry point is *not* among
the selected files, contradicting the claimed inclusion (and showing the
`+10` bonus does not dominate a realistic twelve-word query). -/
theorem c5_counterexample :
    (index_project (strLit "p")
        [(strLit "main.py", strLit "print(1)"),
         (strLit "notes.txt", strLit "q w z j v k x u b d g f")]).entry_points =
      [strLit "main.py"] ∧
      select_relevant_files
        (index_project (strLit "p")
          [(strLit "main.py", strLit "print(1)"),
           (strLit "notes.txt", strLit "q w z j v k x u b d g f")])
        (strLit "q w z j v k x u b d g f") 1 = [strLit "notes.txt"] := by
  decide

/-- C10 counterexample: a sentinel block whose body is a fenced block with
no closing fence line keeps the inner indentation after fence removal, so
the emitted content `"  x"` begins with whitespace — the parser strips
*before* fence removal, not after, refuting "no returned content ever
begins or ends with whitespace". -/
theorem c10_counterexample :
    (parseMultiFileResponse (strLit "===FILE: a===\n```py\n  x  \n===END_FILE===")).files =
      [⟨strLit "a", strLit "  x"⟩] ∧
      pyStrip (strLit "  x") ≠ strLit "  x" := by
  decide

/-!
## Dict-model lemmas (for the assoc-list dict embedding)
-/

/-- Key assignment then lookup on the dict model. -/
theorem alGet_alSet {α : Type} (m : List (Str × α)) (k : Str) (v : α) (k2 : Str) :
    alGet (alSet m k v) k2 = if k2 = k then some v else alGet m k2 := by
  by_cases hany : m.any (fun p => p.1 = k)
  · have hfun : (fun p : Str × α => decide (p.1 = k2)) ∘
        (fun p : Str × α => if p.1 = k then (k, v) else p) =
        fun p : Str × α => decide (p.1 = k2) := by
      funext p
      by_cases hp : p.1 = k <;> simp [hp]
    rw [alGet, alSet, if_pos hany, List.find?_map, hfun]
    by_cases hk : k2 = k
    · subst hk
      obtain ⟨p0, hp0m, hp0⟩ := List.any_eq_true.mp hany
      have hsome : (m.find? fun p : Str × α => decide (p.1 = k2)).isSome := by
        rw [List.find?_isSome]
        exact ⟨p0, hp0m, by simpa using hp0⟩
      obtain ⟨q, hq⟩ := Option.isSome_iff_exists.mp hsome
      have hqk : q.1 = k2 := by simpa using List.find?_some hq
      simp [hq, hqk, alGet]
    · rw [if_neg hk, alGet]
      cases hfind : m.find? fun p : Str × α => decide (p.1 = k2) with
      | none => simp
      | some q =>
        have hqk : q.1 = k2 := by simpa using List.find?_some hfind
        have : ¬ q.1 = k := by rw [hqk]; exact hk
        simp [this]
  · rw [alGet, alSet, if_neg hany, List.find?_append]
    have hnone : m.find? (fun p : Str × α => decide (p.1 = k)) = none := by
      rw [List.find?_eq_none]
      intro x hx
      simp only [List.any_eq_true, not_exists] at hany
      simpa using fun h => (hany x) ⟨hx, by simpa using h⟩
    by_cases hk : k2 = k
    · subst hk
      simp [hnone, alGet, List.find?]
    · have hone : List.find? (fun p : Str × α => decide (p.1 = k2)) [(k, v)] = none := by
        rw [List.find?_eq_none]
        intro x hx
        simp only [List.mem_singleton] at hx
        subst hx
        simp only [decide_eq_true_eq]
        exact fun h => hk h.symm
      rw [if_neg hk, hone, alGet]
      cases hfind : m.find? fun p : Str × α => decide (p.1 = k2) <;> simp [hfind]

/-- Assigning one value to a run of keys, then looking up. -/
theorem alGet_foldl_alSet {α : Type} (v : α) (k : Str) :
    ∀ (as : List Str) (m : List (Str × α)),
      alGet (as.foldl (fun m2 al => alSet m2 al v) m) k =
        if k ∈ as then some v else alGet m k := by
  intro as
  induction as with
  | nil => intro m; simp
  | cons a as ih =>
    intro m
    rw [List.foldl_cons, ih, alGet_alSet]
    by_cases h1 : k ∈ as
    · simp [h1]
    · by_cases h2 : k = a <;> simp [h1, h2]

/-!
## String lemmas and the C10 amended theorem
-/

theorem dropWhile_idem {α : Type} (p : α → Bool) (l : List α) :
    List.dropWhile p (List.dropWhile p l) = List.dropWhile p l := by
  induction l with
  | nil => rfl
  | cons c tl ih =>
    by_cases hc : p c
    · rw [List.dropWhile_cons_of_pos hc, ih]
    · rw [List.dropWhile_cons_of_neg hc, List.dropWhile_cons_of_neg hc]

theorem pyLStrip_idem (s : Str) : pyLStrip (pyLStrip s) = pyLStrip s :=
  dropWhile_idem isPySpace s

theorem pyRStrip_idem (s : Str) : pyRStrip (pyRStrip s) = pyRStrip s := by
  rw [pyRStrip, pyRStrip, List.reverse_reverse, dropWhile_idem]

theorem pyRStrip_prefix (s : Str) : pyRStrip s <+: s := by
  rw [pyRStrip]
  rw [← List.reverse_suffix, List.reverse_reverse]
  exact List.dropWhile_suffix isPySpace

theorem pyLStrip_pyRStrip (s : Str) (h : pyLStrip s = s) :
    pyLStrip (pyRStrip s) = pyRStrip s := by
  cases hr : pyRStrip s with
  | nil => rfl
  | cons c r =>
    obtain ⟨t, ht⟩ := pyRStrip_prefix s
    rw [hr] at ht
    rw [← ht, pyLStrip] at h
    by_cases hc : isPySpace c
    · exfalso
      rw [List.cons_append, List.dropWhile_cons_of_pos hc] at h
      have h1 : (List.dropWhile isPySpace (r ++ t)).length = (r ++ t).length + 1 := by
        rw [h]; rfl
      have h2 := (List.dropWhile_suffix (l := r ++ t) isPySpace).length_le
      omega
    · rw [pyLStrip, List.dropWhile_cons_of_neg hc]

theorem pyStrip_idem (s : Str) : pyStrip (pyStrip s) = pyStrip s := by
  rw [pyStrip, pyStrip, pyLStrip_pyRStrip _ (pyLStrip_idem s), pyRStrip_idem]

theorem pyStrip_eq_self_of_nonws (s : Str) (h : ∀ c ∈ s, isPySpace c = false) :
    pyStrip s = s := by
  have hl : pyLStrip s = s := by
    cases s with
    | nil => rfl
    | cons c tl =>
      rw [pyLStrip, List.dropWhile_cons_of_neg]
      simp [h c (List.mem_cons_self _ _)]
  rw [pyStrip, hl, pyRStrip]
  cases hr : s.reverse with
  | nil => simp [List.reverse_eq_nil_iff.mp hr]
  | cons c r =>
    have hcm : c ∈ s := by
      have : c ∈ s.reverse := by rw [hr]; exact List.mem_cons_self _ _
      simpa using this
    rw [List.dropWhile_cons_of_neg (by simp [h c hcm]), ← hr, List.reverse_reverse]

theorem wordChar_not_space (c : Char) (h : isWordChar c = true) : isPySpace c = false := by
  by_contra hc
  rw [Bool.not_eq_false, isPySpace] at hc
  simp only [Bool.or_eq_true, decide_eq_true_eq] at hc
  rcases hc with ((((h1 | h1) | h1) | h1) | h1) | h1 <;>
    (subst h1; exact absurd h (by decide))

theorem toLower_wordChar_not_space (c : Char) (h : isWordChar c = true) :
    isPySpace (Char.toLower c) = false := by
  rw [Char.toLower]
  split
  · next hc =>
    obtain ⟨h1, h2⟩ := hc
    interval_cases hn : c.toNat <;> decide
  · exact wordChar_not_space c h

theorem digitChar_not_space (k : Nat) (hk : k < 10) :
    isPySpace (Char.ofNat (48 + k)) = false := by
  interval_cases k <;> decide

theorem natReprF_nonws : ∀ (fuel n : Nat), ∀ c ∈ natReprF fuel n, isPySpace c = false := by
  intro fuel
  induction fuel with
  | zero => intro n c hc; simp [natReprF] at hc
  | succ f ih =>
    intro n c hc
    rw [natReprF] at hc
    split at hc
    · next hn =>
      simp only [List.mem_singleton] at hc
      subst hc
      exact digitChar_not_space n hn
    · rcases List.mem_append.mp hc with h1 | h1
      · exact ih _ c h1
      · simp only [List.mem_singleton] at h1
        subst h1
        exact digitChar_not_space _ (Nat.mod_lt _ (by norm_num))

theorem natRepr_nonws (n : Nat) : ∀ c ∈ natRepr n, isPySpace c = false :=
  natReprF_nonws (n + 1) n

theorem mem_splitOnChar (sep : Char) :
    ∀ (s : Str), ∀ part ∈ splitOnChar sep s, ∀ c ∈ part, c ∈ s := by
  intro s
  induction s with
  | nil =>
    intro part hp c hc
    simp only [splitOnChar, List.mem_singleton] at hp
    subst hp
    simp at hc
  | cons a tl ih =>
    intro part hp c hc
    rw [splitOnChar] at hp
    by_cases ha : a = sep
    · rw [if_pos ha] at hp
      rcases List.mem_cons.mp hp with rfl | hp
      · simp at hc
      · exact List.mem_cons_of_mem a (ih part hp c hc)
    · rw [if_neg ha] at hp
      cases hsp : splitOnChar sep tl with
      | nil =>
        rw [hsp] at hp
        simp only [List.mem_singleton] at hp
        subst hp
        simp only [List.mem_singleton] at hc
        subst hc
        exact List.mem_cons_self _ _
      | cons h t =>
        rw [hsp] at hp
        rcases List.mem_cons.mp hp with rfl | hp
        · rcases List.mem_cons.mp hc with rfl | hc
          · exact List.mem_cons_self _ _
          · have hh : h ∈ splitOnChar sep tl := by rw [hsp]; exact List.mem_cons_self _ _
            exact List.mem_cons_of_mem a (ih h hh c hc)
        · have hh : part ∈ splitOnChar sep tl := by
            rw [hsp]; exact List.mem_cons_of_mem h hp
          exact List.mem_cons_of_mem a (ih part hh c hc)

theorem mem_intersperse {α : Type} (sep : α) :
    ∀ (l : List α), ∀ x ∈ l.intersperse sep, x = sep ∨ x ∈ l
  | [], x, h => by simp at h
  | [a], x, h => by
    simp only [List.intersperse_single, List.mem_singleton] at h
    exact Or.inr (by simp [h])
  | a :: b :: t, x, h => by
    rw [List.intersperse_cons₂] at h
    rcases List.mem_cons.mp h with rfl | h
    · exact Or.inr (List.mem_cons_self _ _)
    · rcases List.mem_cons.mp h with rfl | h
      · exact Or.inl rfl
      · rcases mem_intersperse sep (b :: t) x h with h1 | h1
        · exact Or.inl h1
        · exact Or.inr (List.mem_cons_of_mem a h1)

theorem mem_intercalate {α : Type} (sep : List α) (l : List (List α)) (c : α)
    (h : c ∈ List.intercalate sep l) : c ∈ sep ∨ ∃ x ∈ l, c ∈ x := by
  rw [List.intercalate] at h
  obtain ⟨piece, hpiece, hc⟩ := List.mem_flatten.mp h
  rcases mem_intersperse sep l piece hpiece with rfl | h1
  · exact Or.inl hc
  · exact Or.inr ⟨piece, h1, hc⟩

theorem rsplitDotInit_chars (s : Str) (c : Char) (h : c ∈ rsplitDotInit s) :
    c = '.' ∨ c ∈ s := by
  rw [rsplitDotInit] at h
  rcases mem_intercalate ['.'] _ c h with h1 | ⟨x, hx, hc⟩
  · exact Or.inl (by simpa using h1)
  · exact Or.inr (mem_splitOnChar '.' s x
      (List.dropLast_subset _ hx) c hc)

theorem rsplitLast_chars (sep : Char) (s : Str) (c : Char) (h : c ∈ rsplitLast sep s) :
    c ∈ s := by
  rw [rsplitLast] at h
  have hmem := List.getLastD_mem_cons (splitOnChar sep s) []
  rcases List.mem_cons.mp hmem with he | he
  · rw [he] at h; simp at h
  · exact mem_splitOnChar sep s _ he c h

theorem scanPairsF_succ (tryFn : Str → Option (Str × Str × Str)) (f : Nat) (s : Str) :
    scanPairsF tryFn (f + 1) s =
      match tryFn s with
      | some pcr =>
        if pcr.2.2.length < s.length then (pcr.1, pcr.2.1) :: scanPairsF tryFn f pcr.2.2
        else []
      | none =>
        match s with
        | [] => []
        | _ :: tl => scanPairsF tryFn f tl := rfl

set_option maxHeartbeats 2000000 in
theorem extensionMap_nonws (lang : Str) (h : ∀ c ∈ lang, isPySpace c = false) :
    (∀ c ∈ extensionMap lang, isPySpace c = false) ∧ extensionMap lang ≠ [] := by
  have hcase : extensionMap lang ∈
      [strLit "index.html", strLit "style.css", strLit "app.js", strLit "main.py",
       strLit "package.json", strLit "app.ts", strLit "App.jsx", strLit "App.tsx"] ∨
      extensionMap lang = strLit "file." ++ lang := by
    rw [extensionMap]
    split_ifs
    iterate 11 (left; decide)
    right
    rfl
  rcases hcase with hm | he
  · have hall : ∀ x ∈
        [strLit "index.html", strLit "style.css", strLit "app.js", strLit "main.py",
         strLit "package.json", strLit "app.ts", strLit "App.jsx", strLit "App.tsx"],
        (∀ c ∈ x, isPySpace c = false) ∧ x ≠ [] := by decide
    exact hall _ hm
  · rw [he]
    constructor
    · intro c hc
      rcases List.mem_append.mp hc with h1 | h1
      · have hfile : ∀ c ∈ strLit "file.", isPySpace c = false := by decide
        exact hfile c h1
      · exact h c h1
    · exact List.cons_ne_nil _ _

theorem freshNameGo_nonws (base : Str) (used : List Str)
    (hbase : ∀ c ∈ base, isPySpace c = false) :
    ∀ (fuel : Nat) (cand : Str) (counter : Nat),
      (∀ c ∈ cand, isPySpace c = false) → cand ≠ [] →
      (∀ c ∈ freshNameGo base used cand counter fuel, isPySpace c = false) ∧
        freshNameGo base used cand counter fuel ≠ [] := by
  intro fuel
  induction fuel with
  | zero => intro cand counter hc hne; exact ⟨hc, hne⟩
  | succ f ih =>
    intro cand counter hc hne
    rw [freshNameGo]
    by_cases hmem : cand ∈ used
    · rw [if_pos hmem]
      refine ih _ _ ?_ ?_
      · intro c hcm
        rcases List.mem_append.mp hcm with h1 | h1
        · rcases List.mem_append.mp h1 with h2 | h2
          · rcases rsplitDotInit_chars base c h2 with rfl | h3
            · decide
            · exact hbase c h3
          · rcases List.mem_cons.mp h2 with rfl | h3
            · decide
            · exact natRepr_nonws counter c h3
        · rcases List.mem_cons.mp h1 with rfl | h3
          · decide
          · exact hbase c (rsplitLast_chars '.' base c h3)
      · simp
    · rw [if_neg hmem]
      exact ⟨hc, hne⟩

theorem freshName_nonws (base : Str) (used : List Str)
    (hbase : ∀ c ∈ base, isPySpace c = false) (hne : base ≠ []) :
    (∀ c ∈ freshName base used, isPySpace c = false) ∧ freshName base used ≠ [] :=
  freshNameGo_nonws base used hbase (used.length + 1) base 1 hbase hne

/-- The language group of a fence match is a `\w` run. -/
theorem tryFence_lang (s w b r : Str) (h : tryFence s = some (w, b, r)) :
    ∀ c ∈ w, isWordChar c = true := by
  simp only [tryFence] at h
  split_ifs at h
  split at h
  · next pre post heq =>
    simp only [Option.some.injEq, Prod.mk.injEq] at h
    obtain ⟨rfl, -, -⟩ := h
    intro c hc
    exact List.mem_takeWhile_imp hc
  · exact absurd h (by simp)

/-- Every language group `scanFences` returns is a `\w` run. -/
theorem scanFences_lang (response : Str) :
    ∀ pc ∈ scanFences response, ∀ c ∈ pc.1, isWordChar c = true := by
  rw [scanFences, scanPairs]
  generalize response.length + 1 = fuel
  induction fuel generalizing response with
  | zero => intro pc hpc; simp [scanPairsF] at hpc
  | succ f ih =>
    intro pc hpc
    rw [scanPairsF_succ] at hpc
    split at hpc
    · next pcr heq =>
      split at hpc
      · rcases List.mem_cons.mp hpc with rfl | h1
        · exact tryFence_lang response pcr.1 pcr.2.1 pcr.2.2 (by rw [heq])
        · exact ih _ _ h1
      · simp at hpc
    · split at hpc
      · simp at hpc
      · exact ih _ _ hpc

/-- Every entry the generation fallback emits has a non-empty,
whitespace-free synthesized name and a non-empty stripped body (the
language groups come from fence matches, hence are word characters). -/
theorem extractCodeBlocksGo_hygiene :
    ∀ (ms : List (Str × Str)) (used : List Str),
      (∀ lc ∈ ms, ∀ c ∈ lc.1, isWordChar c = true) →
      ∀ f ∈ extractCodeBlocksGo ms used,
        f.path ≠ [] ∧ pyStrip f.path = f.path ∧ f.content ≠ [] := by
  intro ms
  induction ms with
  | nil => intro used hw f hf; simp [extractCodeBlocksGo] at hf
  | cons lc rest ih =>
    intro used hw f hf
    simp only [extractCodeBlocksGo] at hf
    have hlang : ∀ c ∈ toLowerStr (if lc.1 = [] then strLit "txt" else lc.1),
        isPySpace c = false := by
      intro c hc
      rw [toLowerStr] at hc
      obtain ⟨c0, hc0, rfl⟩ := List.mem_map.mp hc
      by_cases hl : lc.1 = []
      · rw [if_pos hl] at hc0
        have htxt : ∀ c1 ∈ strLit "txt", isPySpace (Char.toLower c1) = false := by decide
        exact htxt c0 hc0
      · rw [if_neg hl] at hc0
        exact toLower_wordChar_not_space c0 (hw lc (List.mem_cons_self _ _) c0 hc0)
    have hbase := extensionMap_nonws _ hlang
    have hname := freshName_nonws _ used hbase.1 hbase.2
    split at hf
    · next hne =>
      rcases List.mem_cons.mp hf with rfl | h1
      · exact ⟨hname.2, pyStrip_eq_self_of_nonws _ hname.1, hne⟩
      · exact ih _ (fun lc2 h2 => hw lc2 (List.mem_cons_of_mem _ h2)) f h1
    · next hne =>
      exact ih _ (fun lc2 h2 => hw lc2 (List.mem_cons_of_mem _ h2)) f hf

/-- Every entry the sentinel pass emits has a non-empty stripped path and a
non-empty body. -/
theorem processFileBlocks_hygiene (ms : List (Str × Str)) :
    ∀ f ∈ processFileBlocks ms,
      f.path ≠ [] ∧ pyStrip f.path = f.path ∧ f.content ≠ [] := by
  intro f hf
  rw [processFileBlocks] at hf
  obtain ⟨m, hm, hfm⟩ := List.mem_filterMap.mp hf
  simp only at hfm
  split at hfm
  · next hcond =>
    injection hfm with hfm
    subst hfm
    simp only [Bool.and_eq_true, decide_eq_true_eq] at hcond
    exact ⟨hcond.1, pyStrip_idem m.1, hcond.2⟩
  · exact absurd hfm (by simp)

/-- C10 amended: every emitted generation-parse entry has a non-empty path
equal to its own strip (no leading or trailing whitespace) and a non-empty
body — empty-path or empty-body sentinel blocks are never emitted by the
sentinel pass — and the number of entries can be strictly less than the
number of well-formed sentinel blocks (two blocks, one entry, below);
however the body is stripped *before* fence removal only, so emitted
content may begin or end with whitespace (see the counterexample). -/
theorem c10_entry_hygiene (response : Str) :
    (∀ f ∈ (parseMultiFileResponse response).files,
        f.path ≠ [] ∧ pyStrip f.path = f.path ∧ f.content ≠ []) ∧
      (scanFileBlocks (strLit "===FILE: a===\nx\n===END_FILE======FILE: b===\n\n===END_FILE===")).length = 2 ∧
      (parseMultiFileResponse (strLit "===FILE: a===\nx\n===END_FILE======FILE: b===\n\n===END_FILE===")).files.length = 1 := by
  refine ⟨?_, by decide, by decide⟩
  intro f hf
  simp only [parseMultiFileResponse] at hf
  by_cases hfs : processFileBlocks (scanFileBlocks response) = []
  · rw [if_pos hfs, extractCodeBlocksAsFiles] at hf
    exact extractCodeBlocksGo_hygiene (scanFences response) [] (scanFences_lang response) f hf
  · rw [if_neg hfs] at hf
    exact processFileBlocks_hygiene _ f hf

theorem c10_entry_hygiene_witness :
    strLit "a" ≠ [] ∧ pyStrip (strLit "a") = strLit "a" ∧ strLit "x" ≠ [] :=
  (c10_entry_hygiene (strLit "===FILE: a===\nx\n===END_FILE===")).1
    ⟨strLit "a", strLit "x"⟩ (by decide)

/-!
## Prefix, occurrence and strip lemmas for the C2 round trip
-/

theorem isPrefixOf_append_self (n r : Str) : n.isPrefixOf (n ++ r) = true := by
  induction n with
  | nil => simp
  | cons c tl ih => simp [List.isPrefixOf, ih]

theorem prefix_append_short (n a b : Str) (h : n.isPrefixOf (a ++ b) = true)
    (hlen : n.length ≤ a.length) : n.isPrefixOf a = true := by
  induction n generalizing a with
  | nil => simp
  | cons x n2 ih =>
    cases a with
    | nil => simp at hlen
    | cons y a2 =>
      rw [List.cons_append] at h
      simp only [List.isPrefixOf, Bool.and_eq_true] at h ⊢
      exact ⟨h.1, ih a2 h.2 (by simpa using hlen)⟩

theorem prefix_append_long (n a z : Str) (ch : Char)
    (h : n.isPrefixOf (a ++ ch :: z) = true) (hlen : a.length < n.length) : ch ∈ n := by
  induction a generalizing n with
  | nil =>
    cases n with
    | nil => simp at hlen
    | cons x n2 =>
      simp only [List.nil_append, List.isPrefixOf, Bool.and_eq_true, beq_iff_eq] at h
      rw [h.1]
      exact List.mem_cons_self _ _
  | cons y a2 ih =>
    cases n with
    | nil => simp at hlen
    | cons x n2 =>
      rw [List.cons_append] at h
      simp only [List.isPrefixOf, Bool.and_eq_true] at h
      exact List.mem_cons_of_mem x (ih n2 h.2 (by simpa using hlen))

theorem findSub_boundary (n a z : Str) (hne : n ≠ []) (hnl : '\n' ∉ n)
    (hocc : containsSub n a = false) :
    findSub n (a ++ '\n' :: (n ++ z)) = some (a ++ ['\n'], z) := by
  induction a with
  | nil =>
    rw [List.nil_append, findSub]
    split
    · next hx =>
      exfalso
      obtain ⟨x, n2, rfl⟩ : ∃ x n2, n = x :: n2 := by
        cases n with
        | nil => exact absurd rfl hne
        | cons x n2 => exact ⟨x, n2, rfl⟩
      simp only [List.isPrefixOf, Bool.and_eq_true, beq_iff_eq] at hx
      exact hnl (by rw [hx.1]; exact List.mem_cons_self _ _)
    · have hself : findSub n (n ++ z) = some ([], z) := by
        obtain ⟨x, n2, rfl⟩ : ∃ x n2, n = x :: n2 := by
          cases n with
          | nil => exact absurd rfl hne
          | cons x n2 => exact ⟨x, n2, rfl⟩
        rw [List.cons_append, findSub]
        rw [if_pos (by simpa using isPrefixOf_append_self (x :: n2) z)]
        rw [List.length_cons, List.drop_succ_cons, List.drop_left]
      rw [hself]
      rfl
  | cons y a2 ih =>
    rw [List.cons_append, findSub]
    have hocc2 : containsSub n a2 = false := by
      rw [containsSub] at hocc
      exact (Bool.or_eq_false_iff.mp hocc).2
    split
    · next hp =>
      exfalso
      by_cases hlen : n.length ≤ (y :: a2).length
      · have hp2 := prefix_append_short n (y :: a2) ('\n' :: (n ++ z))
          (by simpa using hp) hlen
        rw [containsSub, hp2] at hocc
        simp at hocc
      · exact hnl
          (prefix_append_long n (y :: a2) (n ++ z) '\n' (by simpa using hp) (by omega))
    · rw [ih hocc2]
      rfl

theorem takeWhile_append_stop (q : Char → Bool) (a : Str) (y : Char) (z : Str)
    (ha : ∀ x ∈ a, q x = true) (hy : q y = false) :
    List.takeWhile q (a ++ y :: z) = a := by
  induction a with
  | nil => simp [List.takeWhile_cons_of_neg, hy]
  | cons c tl ih =>
    rw [List.cons_append, List.takeWhile_cons_of_pos (ha c (List.mem_cons_self _ _))]
    rw [ih (fun x hx => ha x (List.mem_cons_of_mem c hx))]

theorem head_not_space_of_lstripped (c : Char) (tl : Str)
    (h : pyLStrip (c :: tl) = c :: tl) : isPySpace c = false := by
  by_contra hc
  rw [Bool.not_eq_false] at hc
  rw [pyLStrip, List.dropWhile_cons_of_pos hc] at h
  have h1 : (List.dropWhile isPySpace tl).length = tl.length + 1 := by rw [h]; rfl
  have h2 := (List.dropWhile_suffix (l := tl) isPySpace).length_le
  omega

theorem pyStrip_fixed_parts (s : Str) (h : pyStrip s = s) :
    pyLStrip s = s ∧ pyRStrip s = s := by
  have hsuffL : pyLStrip s <:+ s := List.dropWhile_suffix isPySpace
  have h1 : (pyStrip s).length ≤ (pyLStrip s).length := by
    rw [pyStrip, pyRStrip]
    have := (List.dropWhile_suffix (l := (pyLStrip s).reverse) isPySpace).length_le
    simpa using this
  have h2 : (pyLStrip s).length ≤ s.length := hsuffL.length_le
  have h3 : (pyStrip s).length = s.length := by rw [h]
  have hL : pyLStrip s = s := hsuffL.eq_of_length (by omega)
  refine ⟨hL, ?_⟩
  rw [pyStrip, hL] at h
  exact h

theorem pyStrip_cons_ws (c : Char) (hc : isPySpace c = true) (s : Str) :
    pyStrip (c :: s) = pyStrip s := by
  rw [pyStrip, pyStrip, pyLStrip, pyLStrip, List.dropWhile_cons_of_pos hc]

theorem pyStrip_append_nl (s : Str) (hs : pyStrip s = s) (hne : s ≠ []) :
    pyStrip (s ++ ['\n']) = s := by
  obtain ⟨hL, hR⟩ := pyStrip_fixed_parts s hs
  obtain ⟨ch, ct, rfl⟩ : ∃ ch ct, s = ch :: ct := by
    cases s with
    | nil => exact absurd rfl hne
    | cons ch ct => exact ⟨ch, ct, rfl⟩
  have hh : isPySpace ch = false := head_not_space_of_lstripped ch ct hL
  have hdrop : List.dropWhile isPySpace ((ch :: ct).reverse) = (ch :: ct).reverse := by
    have := congrArg List.reverse hR
    rwa [pyRStrip, List.reverse_reverse] at this
  rw [pyStrip, pyLStrip, List.cons_append, List.dropWhile_cons_of_neg (by simp [hh])]
  rw [pyRStrip, ← List.cons_append, List.reverse_append]
  simp only [List.reverse_cons, List.reverse_nil, List.nil_append, List.singleton_append]
  rw [List.reverse_cons] at hdrop
  rw [List.dropWhile_cons_of_pos (by decide), hdrop]
  simp

/-- The path-side conditions of the amended C2 claim. -/
def c2GoodPath (p : Str) : Prop :=
  p ≠ [] ∧ pyStrip p = p ∧ ∀ ch ∈ p, ch ≠ '='

/-- The body-side conditions of the amended C2 claim. -/
def c2GoodBody (c : Str) : Prop :=
  c ≠ [] ∧ pyStrip c = c ∧ containsSub endFileTag c = false ∧
    fenceTag.isPrefixOf c = false

/-- A well-formed sentinel block at the head of the input matches as one
unit: the path group is the space plus the path, the body group is the
body plus the newline before `===END_FILE===`, and scanning resumes right
after the block. -/
theorem tryFileBlock_mkBlock (p c rest : Str)
    (hp : p ≠ []) (hpe : ∀ ch ∈ p, ch ≠ '=')
    (hcs : pyStrip c = c) (hcne : c ≠ [])
    (hocc : containsSub endFileTag c = false) :
    tryFileBlock (mkFileBlock p c ++ rest) = some (' ' :: p, c ++ ['\n'], rest) := by
  have hform : mkFileBlock p c ++ rest =
      fileStartTag ++
        (' ' :: (p ++ ('=' :: '=' :: '=' :: '\n' :: (c ++ '\n' :: (endFileTag ++ rest))))) := by
    rw [mkFileBlock]
    simp only [List.append_assoc, List.cons_append]
    rfl
  obtain ⟨ch, ct, rfl⟩ : ∃ ch ct, c = ch :: ct := by
    cases c with
    | nil => exact absurd rfl hcne
    | cons ch ct => exact ⟨ch, ct, rfl⟩
  have hh : isPySpace ch = false :=
    head_not_space_of_lstripped ch ct (pyStrip_fixed_parts _ hcs).1
  rw [hform]
  simp only [tryFileBlock, isPrefixOf_append_self, if_true, List.drop_left]
  have ht : List.takeWhile (fun x => !(x = '='))
      (' ' :: (p ++ ('=' :: '=' :: '=' :: '\n' ::
        ((ch :: ct) ++ '\n' :: (endFileTag ++ rest))))) = ' ' :: p := by
    rw [List.takeWhile_cons_of_pos (by decide)]
    rw [takeWhile_append_stop _ p '=' _ (fun x hx => by simpa using hpe x hx) (by decide)]
  rw [ht]
  rw [if_neg (by simp)]
  have hd : List.drop (' ' :: p).length
      (' ' :: (p ++ ('=' :: '=' :: '=' :: '\n' ::
        ((ch :: ct) ++ '\n' :: (endFileTag ++ rest))))) =
      '=' :: '=' :: '=' :: '\n' :: ((ch :: ct) ++ '\n' :: (endFileTag ++ rest)) := by
    rw [List.length_cons, List.drop_succ_cons, List.drop_left]
  rw [hd]
  rw [if_pos (by rfl)]
  have hd3 : List.drop 3
      ('=' :: '=' :: '=' :: '\n' :: ((ch :: ct) ++ '\n' :: (endFileTag ++ rest))) =
      '\n' :: ((ch :: ct) ++ '\n' :: (endFileTag ++ rest)) := rfl
  rw [hd3]
  have hw : List.takeWhile isPySpace
      ('\n' :: ((ch :: ct) ++ '\n' :: (endFileTag ++ rest))) = ['\n'] := by
    rw [List.takeWhile_cons_of_pos (by decide), List.cons_append,
      List.takeWhile_cons_of_neg (by simp [hh])]
  rw [hw]
  have hd1 : List.drop (['\n'] : Str).length
      ('\n' :: ((ch :: ct) ++ '\n' :: (endFileTag ++ rest))) =
      (ch :: ct) ++ '\n' :: (endFileTag ++ rest) := rfl
  rw [hd1]
  rw [findSub_boundary endFileTag (ch :: ct) rest (by decide) (by decide) hocc]

theorem scanPairsF_irrel (tryFn : Str → Option (Str × Str × Str)) :
    ∀ (f1 : Nat), ∀ (f2 : Nat) (s : Str), s.length < f1 → s.length < f2 →
      scanPairsF tryFn f1 s = scanPairsF tryFn f2 s := by
  intro f1
  induction f1 with
  | zero => intro f2 s h1 h2; omega
  | succ f ih =>
    intro f2 s h1 h2
    cases f2 with
    | zero => omega
    | succ g =>
      rw [scanPairsF_succ, scanPairsF_succ]
      cases htry : tryFn s with
      | some pcr =>
        dsimp only
        by_cases hlt : pcr.2.2.length < s.length
        · rw [if_pos hlt, if_pos hlt, ih g pcr.2.2 (by omega) (by omega)]
        · rw [if_neg hlt, if_neg hlt]
      | none =>
        dsimp only
        cases s with
        | nil => rfl
        | cons x tl =>
          exact ih g tl (by simpa using h1) (by simpa using h2)

theorem scanPairs_cons (tryFn : Str → Option (Str × Str × Str)) (s p c r : Str)
    (h : tryFn s = some (p, c, r)) (hlt : r.length < s.length) :
    scanPairs tryFn s = (p, c) :: scanPairs tryFn r := by
  rw [scanPairs, scanPairs, scanPairsF_succ, h]
  dsimp only
  rw [if_pos hlt]
  rw [scanPairsF_irrel tryFn s.length (r.length + 1) r hlt (by omega)]

/-- Appending anything to a non-empty list strictly lengthens it. -/
theorem length_lt_append (a r : Str) (ha : a ≠ []) : r.length < (a ++ r).length := by
  rw [List.length_append]
  have := List.length_pos_iff_ne_nil.mpr ha
  omega

theorem mkFileBlock_ne_nil (p c : Str) : mkFileBlock p c ≠ [] := by
  rw [mkFileBlock]
  simp [strLit]

/-- Scanning a concatenation of well-formed sentinel blocks yields exactly
the block list's groups in order. -/
theorem scanFileBlocks_mkResponse (bs : List (Str × Str))
    (hg : ∀ pc ∈ bs, c2GoodPath pc.1 ∧ c2GoodBody pc.2) :
    scanFileBlocks (mkMultiFileResponse bs) =
      bs.map (fun pc => (' ' :: pc.1, pc.2 ++ ['\n'])) := by
  induction bs with
  | nil => rfl
  | cons pc bs ih =>
    have hgp := hg pc (List.mem_cons_self _ _)
    obtain ⟨⟨hp, hps, hpe⟩, ⟨hcne, hcs, hocc, hfence⟩⟩ := hgp
    have hresp : mkMultiFileResponse (pc :: bs) =
        mkFileBlock pc.1 pc.2 ++ mkMultiFileResponse bs := by
      rw [mkMultiFileResponse, mkMultiFileResponse, List.map_cons, List.foldr_cons]
    rw [scanFileBlocks, hresp]
    rw [scanPairs_cons tryFileBlock _ (' ' :: pc.1) (pc.2 ++ ['\n'])
      (mkMultiFileResponse bs)
      (tryFileBlock_mkBlock pc.1 pc.2 _ hp hpe hcs hcne hocc)
      (length_lt_append _ _ (mkFileBlock_ne_nil pc.1 pc.2))]
    rw [← scanFileBlocks, ih (fun x hx => hg x (List.mem_cons_of_mem _ hx))]
    rfl

theorem filterMap_eq_map_of {α β : Type} (f : α → Option β) (k : α → β) (l : List α)
    (h : ∀ x ∈ l, f x = some (k x)) : l.filterMap f = l.map k := by
  induction l with
  | nil => rfl
  | cons x tl ih =>
    rw [List.filterMap_cons, h x (List.mem_cons_self _ _), List.map_cons,
      ih (fun y hy => h y (List.mem_cons_of_mem x hy))]

theorem splitOnChar_ne_nil (sep : Char) (s : Str) : splitOnChar sep s ≠ [] := by
  cases s with
  | nil => simp [splitOnChar]
  | cons c tl =>
    rw [splitOnChar]
    by_cases hc : c = sep
    · simp [hc]
    · rw [if_neg hc]
      cases hsp : splitOnChar sep tl <;> simp

theorem splitOnChar_append_sep (sep : Char) (a b : Str) :
    splitOnChar sep (a ++ sep :: b) = splitOnChar sep a ++ splitOnChar sep b := by
  induction a with
  | nil => simp [splitOnChar]
  | cons c a2 ih =>
    rw [List.cons_append, splitOnChar, splitOnChar]
    by_cases hc : c = sep
    · rw [if_pos hc, if_pos hc, ih]
      rfl
    · rw [if_neg hc, if_neg hc, ih]
      cases hsp : splitOnChar sep a2 with
      | nil => exact absurd hsp (splitOnChar_ne_nil sep a2)
      | cons h t => rfl

theorem splitOnChar_of_not_mem (sep : Char) (a : Str) (h : sep ∉ a) :
    splitOnChar sep a = [a] := by
  induction a with
  | nil => rfl
  | cons c a2 ih =>
    rw [splitOnChar, if_neg (by rintro rfl; exact h (List.mem_cons_self _ _))]
    rw [ih (fun hm => h (List.mem_cons_of_mem c hm))]

theorem joinNl_cons_cons (x y : Str) (t : List Str) :
    joinNl (x :: y :: t) = x ++ '\n' :: joinNl (y :: t) := by
  rw [joinNl, joinNl, List.intercalate, List.intercalate, List.intersperse_cons₂]
  rw [List.flatten_cons, List.flatten_cons]
  rfl

theorem joinNl_splitNl (s : Str) : joinNl (splitNl s) = s := by
  induction s with
  | nil => rfl
  | cons c tl ih =>
    rw [splitNl] at ih ⊢
    rw [splitOnChar]
    cases hsp : splitOnChar '\n' tl with
    | nil => exact absurd hsp (splitOnChar_ne_nil '\n' tl)
    | cons h t =>
      rw [hsp] at ih
      by_cases hc : c = '\n'
      · rw [if_pos hc, joinNl_cons_cons, ih, hc]
        rfl
      · rw [if_neg hc]
        cases t with
        | nil =>
          rw [joinNl] at ih ⊢
          simp only [List.intercalate, List.intersperse_single, List.flatten] at ih ⊢
          simp only [List.append_nil] at ih ⊢
          rw [ih]
        | cons t1 t2 =>
          rw [joinNl_cons_cons, List.cons_append, ← joinNl_cons_cons, ih]

theorem containsSub_cons_false (n : Str) (x : Char) (a : Str)
    (hx : x ∉ n) (hne : n ≠ []) (h : containsSub n a = false) :
    containsSub n (x :: a) = false := by
  rw [containsSub, h, Bool.or_false]
  obtain ⟨y, n2, rfl⟩ : ∃ y n2, n = y :: n2 := by
    cases n with
    | nil => exact absurd rfl hne
    | cons y n2 => exact ⟨y, n2, rfl⟩
  simp only [List.isPrefixOf, Bool.and_eq_false_iff, beq_eq_false_iff_ne, ne_eq]
  by_cases hyx : y = x
  · exact absurd (hyx ▸ List.mem_cons_self y n2) (hyx ▸ hx)
  · exact Or.inl hyx

theorem containsSub_append_nl (n a b : Str) (hne : n ≠ []) (hnl : '\n' ∉ n)
    (ha : containsSub n a = false) (hb : containsSub n b = false) :
    containsSub n (a ++ '\n' :: b) = false := by
  induction a with
  | nil => exact containsSub_cons_false n '\n' b hnl hne hb
  | cons y a2 ih =>
    have ha2 : containsSub n a2 = false := by
      rw [containsSub] at ha
      exact (Bool.or_eq_false_iff.mp ha).2
    rw [List.cons_append, containsSub, ih ha2, Bool.or_false]
    by_cases hp : n.isPrefixOf (y :: (a2 ++ '\n' :: b)) = true
    · exfalso
      by_cases hlen : n.length ≤ (y :: a2).length
      · have hp2 := prefix_append_short n (y :: a2) ('\n' :: b) (by rwa [List.cons_append]) hlen
        rw [containsSub, hp2] at ha
        simp at ha
      · exact hnl (prefix_append_long n (y :: a2) b '\n' (by rwa [List.cons_append]) (by omega))
    · exact Bool.eq_false_iff.mpr hp

theorem pyRStrip_concat_nonws (X : Str) (c : Char) (hc : isPySpace c = false) :
    pyRStrip (X ++ [c]) = X ++ [c] := by
  rw [pyRStrip, List.reverse_append]
  simp only [List.reverse_cons, List.reverse_nil, List.nil_append, List.singleton_append]
  rw [List.dropWhile_cons_of_neg (by simp [hc])]
  simp

theorem pyLStrip_fence (Y : Str) : pyLStrip (fenceTag ++ Y) = fenceTag ++ Y := by
  show pyLStrip ('`' :: (strLit "``" ++ Y)) = fenceTag ++ Y
  rw [pyLStrip, List.dropWhile_cons_of_neg (by decide)]
  rfl

theorem wrapFence_shape (lang c : Str) :
    wrapFence lang c = (fenceTag ++ lang) ++ '\n' :: (c ++ '\n' :: fenceTag) := by
  rw [wrapFence]
  simp [List.append_assoc]

/-- Removing the fence from a wrapped body returns the body unchanged. -/
theorem stripFence_wrap (lang c : Str) (hnl : '\n' ∉ lang) :
    stripFenceIfPresent (wrapFence lang c) = c := by
  have hpre : fenceTag.isPrefixOf (wrapFence lang c) = true := by
    rw [wrapFence, List.append_assoc, List.append_assoc]
    exact isPrefixOf_append_self fenceTag _
  rw [stripFenceIfPresent, if_pos hpre]
  have hlines : splitNl (wrapFence lang c) =
      [fenceTag ++ lang] ++ (splitNl c ++ [fenceTag]) := by
    rw [wrapFence_shape, splitNl, splitOnChar_append_sep]
    rw [splitOnChar_of_not_mem '\n' (fenceTag ++ lang)
      (by
        intro hm
        rcases List.mem_append.mp hm with h1 | h1
        · revert h1; decide
        · exact hnl h1)]
    rw [show (c ++ '\n' :: fenceTag : Str) = c ++ '\n' :: fenceTag from rfl]
    rw [splitOnChar_append_sep, splitOnChar_of_not_mem '\n' fenceTag (by decide)]
    rfl
  rw [hlines]
  rw [List.singleton_append, List.drop_one, List.tail_cons]
  dsimp only
  have hcond : (decide ((splitNl c ++ [fenceTag]) ≠ []) &&
      decide (pyStrip ((splitNl c ++ [fenceTag]).getLastD []) = fenceTag)) = true := by
    rw [Bool.and_eq_true]
    refine ⟨by simp, ?_⟩
    rw [List.getLastD_concat]
    decide
  rw [if_pos hcond, List.dropLast_concat]
  exact joinNl_splitNl c

/-- Processing the matched groups of well-formed blocks yields exactly the
(path, body) pairs. -/
theorem processFileBlocks_mkGroups (bs : List (Str × Str))
    (hg : ∀ pc ∈ bs, c2GoodPath pc.1 ∧ c2GoodBody pc.2) :
    processFileBlocks (bs.map (fun pc => (' ' :: pc.1, pc.2 ++ ['\n']))) =
      bs.map (fun pc => GenFile.mk pc.1 pc.2) := by
  rw [processFileBlocks, List.filterMap_map]
  refine filterMap_eq_map_of _ _ bs ?_
  intro pc hpc
  obtain ⟨⟨hp, hps, hpe⟩, ⟨hcne, hcs, hocc, hfence⟩⟩ := hg pc hpc
  have hpath : pyStrip (' ' :: pc.1) = pc.1 := by
    rw [pyStrip_cons_ws _ (by decide), hps]
  have hcontent : pyStrip (pc.2 ++ ['\n']) = pc.2 := pyStrip_append_nl _ hcs hcne
  have hsf : stripFenceIfPresent pc.2 = pc.2 := by
    rw [stripFenceIfPresent, if_neg (by simp [hfence])]
  simp only [Function.comp]
  dsimp only
  rw [hpath, hcontent, hsf]
  rw [if_pos (by rw [Bool.and_eq_true]; exact ⟨decide_eq_true hp, decide_eq_true hcne⟩)]

/-- C2 amended: (1) a response concatenated from well-formed sentinel
blocks — non-empty stripped paths without `'='`, non-empty stripped bodies
that do not contain the end sentinel and do not begin with a code fence —
parses to exactly the block list's `(path, content)` pairs in order; and
(2) wrapping a single block's body in a fenced code block (newline-free
language tag, body free of the end sentinel) and parsing returns the
unwrapped body. -/
theorem c2_roundtrip :
    (∀ bs : List (Str × Str), bs ≠ [] →
      List.Pairwise (fun x y => x.1 ≠ y.1) bs →
      (∀ pc ∈ bs, c2GoodPath pc.1 ∧ c2GoodBody pc.2) →
      (parseMultiFileResponse (mkMultiFileResponse bs)).files =
        bs.map (fun pc => GenFile.mk pc.1 pc.2)) ∧
    (∀ p c lang : Str, c2GoodPath p → c ≠ [] → '\n' ∉ lang →
      containsSub endFileTag c = false → containsSub endFileTag lang = false →
      (parseMultiFileResponse (mkFileBlock p (wrapFence lang c))).files =
        [GenFile.mk p c]) := by
  constructor
  · intro bs hne hdist hg
    simp only [parseMultiFileResponse]
    rw [scanFileBlocks_mkResponse bs hg, processFileBlocks_mkGroups bs hg]
    rw [if_neg (by simp [hne])]
  · intro p c lang hp hcne hnl hocc hoccl
    obtain ⟨hpne, hps, hpe⟩ := hp
    have hwne : wrapFence lang c ≠ [] := by
      rw [wrapFence_shape]
      simp
    have hwocc : containsSub endFileTag (wrapFence lang c) = false := by
      rw [wrapFence_shape]
      refine containsSub_append_nl _ _ _ (by decide) (by decide) ?_ ?_
      · rw [show (fenceTag ++ lang : Str) = '`' :: ('`' :: ('`' :: lang)) from rfl]
        refine containsSub_cons_false _ _ _ (by decide) (by decide)
          (containsSub_cons_false _ _ _ (by decide) (by decide)
            (containsSub_cons_false _ _ _ (by decide) (by decide) hoccl))
      · exact containsSub_append_nl _ _ _ (by decide) (by decide) hocc (by decide)
    have hwL : pyLStrip (wrapFence lang c) = wrapFence lang c := by
      rw [wrapFence, List.append_assoc, List.append_assoc]
      exact pyLStrip_fence _
    have hsh : wrapFence lang c =
        ((fenceTag ++ lang) ++ '\n' :: (c ++ ['\n', '`', '`'])) ++ ['`'] := by
      rw [wrapFence_shape]
      simp only [List.append_assoc, List.cons_append, List.nil_append]
      rfl
    have hwR : pyRStrip (wrapFence lang c) = wrapFence lang c := by
      rw [hsh]
      exact pyRStrip_concat_nonws _ '`' (by decide)
    have hwstrip : pyStrip (wrapFence lang c) = wrapFence lang c := by
      rw [pyStrip, hwL, hwR]
    have hscan : scanFileBlocks (mkFileBlock p (wrapFence lang c)) =
        [(' ' :: p, wrapFence lang c ++ ['\n'])] := by
      rw [scanFileBlocks,
        show mkFileBlock p (wrapFence lang c) =
          mkFileBlock p (wrapFence lang c) ++ [] from (List.append_nil _).symm]
      rw [scanPairs_cons tryFileBlock _ _ _ []
        (tryFileBlock_mkBlock p _ [] hpne hpe hwstrip hwne hwocc)
        (length_lt_append _ _ (mkFileBlock_ne_nil _ _))]
      rfl
    have hpath : pyStrip (' ' :: p) = p := by
      rw [pyStrip_cons_ws _ (by decide), hps]
    have hcontent : pyStrip (wrapFence lang c ++ ['\n']) = wrapFence lang c :=
      pyStrip_append_nl _ hwstrip hwne
    have hproc : processFileBlocks [(' ' :: p, wrapFence lang c ++ ['\n'])] =
        [GenFile.mk p c] := by
      rw [processFileBlocks, List.filterMap_cons]
      dsimp only
      rw [hpath, hcontent, stripFence_wrap lang c hnl]
      rw [if_pos (by rw [Bool.and_eq_true]; exact ⟨decide_eq_true hpne, decide_eq_true hcne⟩)]
      rfl
    simp only [parseMultiFileResponse]
    rw [hscan, hproc]
    rw [if_neg (by simp)]

theorem c2_roundtrip_witness :
    (parseMultiFileResponse (mkMultiFileResponse [(strLit "a", strLit "x")])).files =
      [GenFile.mk (strLit "a") (strLit "x")] :=
  c2_roundtrip.1 [(strLit "a", strLit "x")] (by simp)
    (List.pairwise_singleton _ _)
    (by
      intro pc hpc
      simp only [List.mem_singleton] at hpc
      subst hpc
      refine ⟨⟨by decide, by decide, by decide⟩, by decide, by decide, by decide, by decide⟩)

/-- In every branch of `_analyze_file` the `path` field is the given
file path. -/
theorem analyze_file_path (fp c : Str) : (analyze_file fp c).path = fp := by
  simp only [analyze_file]
  split_ifs <;> rfl

theorem str_contains_of_mem {l : List Str} {x : Str} (h : x ∈ l) : l.contains x = true :=
  List.contains_iff_exists_mem_beq.mpr ⟨x, h, by simp⟩

theorem str_mem_of_contains {l : List Str} {x : Str} (h : l.contains x = true) : x ∈ l := by
  obtain ⟨y, hy, hbeq⟩ := List.contains_iff_exists_mem_beq.mp h
  rwa [show x = y from by simpa using hbeq]

/-- Under an empty query an entry-point file scores at least 10. -/
theorem scoreFile_entry_ge (eps : List Str) (info : FileInfo)
    (h : eps.contains info.path = true) : 10 ≤ scoreFile eps [] info := by
  simp only [scoreFile, h]
  split_ifs <;> first | omega | simp_all

/-- Under an empty query a non-entry-point file scores at most 8. -/
theorem scoreFile_nonentry_le (eps : List Str) (info : FileInfo)
    (h : eps.contains info.path = false) : scoreFile eps [] info ≤ 8 := by
  simp only [scoreFile, h]
  split_ifs <;> first | omega | simp_all

/-- Pigeonhole for the stable descending sort: if at most `k` elements of
`L0` score at least 10, every element scoring at least 10 lands in the
first `k` entries of the sorted list. -/
theorem sorted_take_mem_of_high (L0 : List (Str × Nat)) (k : Nat)
    (hcount : (L0.filter (fun e => 10 ≤ e.2)).length ≤ k)
    (p : Str) (s : Nat) (hmem : (p, s) ∈ L0) (hs : 10 ≤ s) :
    p ∈ ((L0.insertionSort (fun a b => b.2 ≤ a.2)).take k).map (fun e => e.1) := by
  by_contra hnot
  have hperm : List.Perm (L0.insertionSort (fun a b => b.2 ≤ a.2)) L0 :=
    List.perm_insertionSort _ L0
  have hsorted : List.Sorted (fun a b : Str × Nat => b.2 ≤ a.2)
      (L0.insertionSort (fun a b => b.2 ≤ a.2)) :=
    List.sorted_insertionSort _ L0
  set L := L0.insertionSort (fun a b => b.2 ≤ a.2) with hLdef
  have hmemL : (p, s) ∈ L := hperm.mem_iff.mpr hmem
  have hsplit := List.take_append_drop k L
  have hdk : (p, s) ∈ L.drop k := by
    rcases List.mem_append.mp (hsplit ▸ hmemL) with htk | hdk
    · exact absurd (List.mem_map.mpr ⟨(p, s), htk, rfl⟩) hnot
    · exact hdk
  have hlen : k < L.length := by
    by_contra hge
    push_neg at hge
    rw [List.drop_eq_nil_of_le hge] at hdk
    exact (List.not_mem_nil _) hdk
  have htklen : (L.take k).length = k := by
    rw [List.length_take]
    omega
  have hpairwise : ∀ x ∈ L.take k, ∀ y ∈ L.drop k, y.2 ≤ x.2 := by
    have hp2 : List.Pairwise (fun a b : Str × Nat => b.2 ≤ a.2) (L.take k ++ L.drop k) := by
      rw [hsplit]; exact hsorted
    exact fun x hx y hy => (List.pairwise_append.mp hp2).2.2 x hx y hy
  have hhigh : ∀ x ∈ L.take k, (fun e : Str × Nat => decide (10 ≤ e.2)) x = true :=
    fun x hx => decide_eq_true (le_trans hs (hpairwise x hx (p, s) hdk))
  have hc1 : (L.take k).countP (fun e => decide (10 ≤ e.2)) = k := by
    rw [List.countP_eq_length.mpr hhigh, htklen]
  have hc2 : 0 < (L.drop k).countP (fun e => decide (10 ≤ e.2)) :=
    List.countP_pos_iff.mpr ⟨(p, s), hdk, decide_eq_true hs⟩
  have hsum : L.countP (fun e => decide (10 ≤ e.2)) =
      (L.take k).countP (fun e => decide (10 ≤ e.2)) +
      (L.drop k).countP (fun e => decide (10 ≤ e.2)) := by
    conv_lhs => rw [← hsplit]
    apply List.countP_append
  have hL0 : L.countP (fun e => decide (10 ≤ e.2)) =
      (L0.filter (fun e => decide (10 ≤ e.2))).length := by
    rw [hperm.countP_eq, List.countP_eq_length_filter]
  omega

/-- C5 amended: `_select_relevant_files` returns at most `max_files` paths
for every input; and whenever the query is empty — so that no keyword
score competes with the `+10` entry bonus — and
`max_files ≥ len(entry_points)`, every entry point of an index built from
files with pairwise-distinct paths is among the selected files.  (The
original "under realistic query lengths" inclusion is refuted by
`c5_counterexample`: a twelve-word query already overturns the bonus.) -/
theorem c5_selection (pid : Str) (files : List (Str × Str)) (query : Str) (k : Nat)
    (hnd : (files.map Prod.fst).Nodup) :
    (select_relevant_files (index_project pid files) query k).length ≤ k ∧
      (query = [] →
        (index_project pid files).entry_points.length ≤ k →
        ∀ p ∈ (index_project pid files).entry_points,
          p ∈ select_relevant_files (index_project pid files) query k) := by
  constructor
  · rw [show select_relevant_files (index_project pid files) query k =
        ((((index_project pid files).files.map (fun info =>
            (info.path, scoreFile (index_project pid files).entry_points
              (toLowerStr query) info))).insertionSort
          (fun a b => b.2 ≤ a.2)).take k).map (fun e => e.1) from rfl]
    rw [List.length_map, List.length_take]
    exact min_le_left _ _
  · intro hq hk p hp
    subst hq
    have hepseq : (index_project pid files).entry_points = findEntryPoints files := rfl
    have hsel : select_relevant_files (index_project pid files) [] k =
        ((((files.map (fun f => analyze_file f.1 f.2)).map (fun info =>
              (info.path, scoreFile (findEntryPoints files) [] info))).insertionSort
          (fun a b => b.2 ≤ a.2)).take k).map (fun e => e.1) := rfl
    have hpm : p ∈ findEntryPoints files := hepseq ▸ hp
    have hpm2 := hpm
    rw [findEntryPoints, List.mem_filter] at hpm2
    obtain ⟨-, hany⟩ := hpm2
    obtain ⟨f, hf, hfp⟩ := List.any_eq_true.mp hany
    have hfp' : f.1 = p := of_decide_eq_true hfp
    have hinfomem : analyze_file f.1 f.2 ∈ files.map (fun f => analyze_file f.1 f.2) :=
      List.mem_map_of_mem _ hf
    have hpath : (analyze_file f.1 f.2).path = p := by rw [analyze_file_path, hfp']
    have hcont : (findEntryPoints files).contains (analyze_file f.1 f.2).path = true := by
      rw [hpath]; exact str_contains_of_mem hpm
    have hsmem : (p, scoreFile (findEntryPoints files) [] (analyze_file f.1 f.2)) ∈
        (files.map (fun f => analyze_file f.1 f.2)).map (fun info =>
          (info.path, scoreFile (findEntryPoints files) [] info)) := by
      refine List.mem_map.mpr ⟨analyze_file f.1 f.2, hinfomem, ?_⟩
      rw [hpath]
    have hsge : 10 ≤ scoreFile (findEntryPoints files) [] (analyze_file f.1 f.2) :=
      scoreFile_entry_ge _ _ hcont
    have hmapfst : ((files.map (fun f => analyze_file f.1 f.2)).map (fun info =>
        (info.path, scoreFile (findEntryPoints files) [] info))).map (fun e => e.1) =
          files.map Prod.fst := by
      simp only [List.map_map]
      refine List.map_congr_left (fun g _ => ?_)
      simp [Function.comp, analyze_file_path]
    have hnds : (((files.map (fun f => analyze_file f.1 f.2)).map (fun info =>
        (info.path, scoreFile (findEntryPoints files) [] info))).map (fun e => e.1)).Nodup := by
      rw [hmapfst]; exact hnd
    have hsubset : ((((files.map (fun f => analyze_file f.1 f.2)).map (fun info =>
        (info.path, scoreFile (findEntryPoints files) [] info))).filter
          (fun e => 10 ≤ e.2)).map (fun e => e.1)) ⊆ findEntryPoints files := by
      intro x hx
      obtain ⟨e, he, hex⟩ := List.mem_map.mp hx
      obtain ⟨hesc, hep⟩ := List.mem_filter.mp he
      obtain ⟨i, hi, hie⟩ := List.mem_map.mp hesc
      cases hc : (findEntryPoints files).contains i.path
      · exfalso
        have hle : scoreFile (findEntryPoints files) [] i ≤ 8 :=
          scoreFile_nonentry_le _ _ hc
        have h10 : 10 ≤ e.2 := of_decide_eq_true hep
        rw [← hie] at h10
        simp only at h10
        omega
      · have hmem9 : i.path ∈ findEntryPoints files := str_mem_of_contains hc
        rw [← hex, ← hie]
        exact hmem9
    have hfilnd : (((((files.map (fun f => analyze_file f.1 f.2)).map (fun info =>
        (info.path, scoreFile (findEntryPoints files) [] info))).filter
          (fun e => 10 ≤ e.2)).map (fun e => e.1))).Nodup :=
      List.Nodup.sublist (List.Sublist.map _ (List.filter_sublist _)) hnds
    have hcount : (((files.map (fun f => analyze_file f.1 f.2)).map (fun info =>
        (info.path, scoreFile (findEntryPoints files) [] info))).filter
          (fun e => 10 ≤ e.2)).length ≤ k := by
      have h1 := (hfilnd.subperm hsubset).length_le
      rw [List.length_map] at h1
      refine le_trans h1 (le_trans ?_ hk)
      rw [hepseq]
    rw [hsel]
    exact sorted_take_mem_of_high _ k hcount p _ hsmem hsge

theorem c5_selection_witness :
    (([(strLit "main.py", strLit "print(1)"),
        (strLit "notes.txt", strLit "y")].map Prod.fst).Nodup) ∧
      strLit "main.py" ∈ select_relevant_files
        (index_project (strLit "p")
          [(strLit "main.py", strLit "print(1)"), (strLit "notes.txt", strLit "y")]) [] 1 :=
  ⟨by decide,
    (c5_selection (strLit "p")
        [(strLit "main.py", strLit "print(1)"), (strLit "notes.txt", strLit "y")] [] 1
        (by decide)).2 rfl (by decide) (strLit "main.py") (by decide)⟩
